import Mathlib

/-!
# llmo-analysis: a verification development for `cmd/main.go`

Go strings are modelled as lists of runes (`List Char`), i.e. as valid UTF-8
text; `strings.Contains` on valid UTF-8 coincides with containment of rune
sequences because UTF-8 is self-synchronising.  External effects (the Gemini
API, the clock, the file system) are explicit inputs of the functions below.
A `float64` is modelled by the rational it denotes, with every operation
rounded to 53 significant bits, to nearest, ties to even.
-/

namespace LLMO

/-- Go `string`, as its sequence of runes. -/
abbrev GoString := List Char

/-! ## The parts of package `strings` and `unicode` used by `main` -/

/-- `unicode.ToLower`: the ASCII branch is written out; above ASCII the
library consults its `CaseRanges` table, which is the parameter `tbl`. -/
def unicodeToLower (tbl : Char → Char) (r : Char) : Char :=
  if r.toNat ≤ 0x7F then
    if 'A'.toNat ≤ r.toNat ∧ r.toNat ≤ 'Z'.toNat then Char.ofNat (r.toNat + ('a'.toNat - 'A'.toNat))
    else r
  else tbl r

/-- `strings.ToLower`: every rune mapped through `unicode.ToLower`. -/
def ToLower (tbl : Char → Char) (s : GoString) : GoString :=
  s.map (unicodeToLower tbl)

/-- `strings.Index` scanning from offset `i`: the rune offset of the first
occurrence of `substr`, or `-1`. -/
def indexFrom (substr : GoString) : GoString → Nat → Int
  | [], i => if substr.isPrefixOf [] then (i : Int) else -1
  | c :: cs, i => if substr.isPrefixOf (c :: cs) then (i : Int) else indexFrom substr cs (i + 1)

/-- `strings.Index`. -/
def Index (s substr : GoString) : Int := indexFrom substr s 0

/-- `strings.Contains(s, substr)` is `Index(s, substr) >= 0`. -/
def Contains (s substr : GoString) : Bool := decide (0 ≤ Index s substr)

/-- `strings.Join`. -/
def Join : List GoString → GoString → GoString
  | [], _ => []
  | [a], _ => a
  | a :: b :: rest, sep => a ++ sep ++ Join (b :: rest) sep

/-- `strings.Split(s, sep)` for the one-rune separators used in `main`
(`","` and `"|"`): `cur` is the piece being collected. -/
def splitAux (sep : Char) : GoString → GoString → List GoString
  | [], cur => [cur]
  | c :: cs, cur => if c = sep then cur :: splitAux sep cs [] else splitAux sep cs (cur ++ [c])

/-- `strings.Split` with a one-rune separator. -/
def Split (s : GoString) (sep : Char) : List GoString := splitAux sep s []

/-! ## Data model -/

/-- The record `QueryResult` of `main.go`. -/
structure QueryResult where
  Query : GoString
  Timestamp : GoString
  CompanyMentioned : Bool
  ProductsMentioned : GoString
  URLMentioned : Bool
  FullResponse : GoString
  deriving DecidableEq, Repr

/-- The literal `"なし"` written when no product name was collected. -/
def noneSentinel : GoString := ['な', 'し']

/-- The separator `", "` of the product display string. -/
def productSep : GoString := [',', ' ']

/-! ## Mention analysis (`main`, lines 69-96) -/

/-- The mention test of lines 70, 73 and 85. -/
def mentioned (tbl : Char → Char) (answerText term : GoString) : Bool :=
  Contains (ToLower tbl answerText) (ToLower tbl term)

/-- The inner loop of lines 71-76: `append` each product that is mentioned. -/
def mentionedProducts (tbl : Char → Char) (answerText : GoString) (productNames : List GoString) :
    List GoString :=
  productNames.foldl
    (fun acc product => if mentioned tbl answerText product then acc ++ [product] else acc) []

/-- Lines 79-82: join the collected names, replace the empty string by the sentinel. -/
def productsMentioned (tbl : Char → Char) (answerText : GoString) (productNames : List GoString) :
    GoString :=
  let joined := Join (mentionedProducts tbl answerText productNames) productSep
  if joined = [] then noneSentinel else joined

/-- Lines 70-95: the record built for a query that was answered. -/
def buildResult (tbl : Char → Char) (companyName domainName : GoString)
    (productNames : List GoString) (query now answerText : GoString) : QueryResult :=
  { Query := query
    Timestamp := now
    CompanyMentioned := mentioned tbl answerText companyName
    ProductsMentioned := productsMentioned tbl answerText productNames
    URLMentioned := mentioned tbl answerText domainName
    FullResponse := answerText }

/-- The test of line 203 in `printSummary`: does this record count as a product mention. -/
def countsAsProductMention (r : QueryResult) : Bool :=
  decide (r.ProductsMentioned ≠ noneSentinel)

/-- A case table that leaves every rune above ASCII unchanged. -/
def identityTable : Char → Char := fun r => r

/-- A case table with one entry: the Kelvin sign U+212A is lowered to `k`. -/
def kelvinTable : Char → Char := fun r => if r = Char.ofNat 0x212A then 'k' else r

/-! ## The Gemini response (package `genai`) and `callGeminiAPI` -/

/-- The interface `genai.Part`: a text segment or one of the other kinds. -/
inductive Part where
  | Text (text : GoString)
  | Blob (mimeType : GoString) (data : List Nat)
  | FunctionCall (name : GoString)
  | FunctionResponse (name : GoString)
  deriving DecidableEq, Repr

/-- The struct `genai.Content`. -/
structure Content where
  Parts : List Part
  Role : GoString
  deriving DecidableEq, Repr

/-- The struct `genai.Candidate`; `Content` is a pointer, `none` is `nil`.  The
entries of `Candidates` are themselves pointers, which the SDK builds from the
decoded message and never leaves `nil`, so they are modelled as values. -/
structure Candidate where
  Content : Option Content
  deriving DecidableEq, Repr

/-- The struct `genai.GenerateContentResponse`. -/
structure GenerateContentResponse where
  Candidates : List Candidate
  deriving DecidableEq, Repr

/-- The three errors `callGeminiAPI` builds with `fmt.Errorf` (lines 118, 127, 136). -/
inductive APIError where
  | callFailed (cause : GoString)
  | noValidAnswer
  | firstPartNotText
  deriving DecidableEq, Repr

/-- The function `callGeminiAPI`, lines 110-137; `apiResult` is what
`model.GenerateContent` returned (an error or a response). -/
def callGeminiAPI (apiResult : Except GoString GenerateContentResponse) :
    GoString × Option APIError :=
  match apiResult with
  | .error cause => ([], some (.callFailed cause))
  | .ok resp =>
    match resp.Candidates with
    | [] => ([], some .noValidAnswer)
    | candidate :: _ =>
      match candidate.Content with
      | none => ([], some .noValidAnswer)
      | some content =>
        match content.Parts with
        | [] => ([], some .noValidAnswer)
        | Part.Text textPart :: _ => (textPart, none)
        | _ :: _ => ([], some .firstPartNotText)

/-- The conditions the specification puts on a usable response: at least one
candidate, whose content is present with at least one segment, the first
segment being text. -/
def wellFormed (resp : GenerateContentResponse) : Bool :=
  match resp.Candidates.head? with
  | none => false
  | some candidate =>
    match candidate.Content with
    | none => false
    | some content =>
      match content.Parts.head? with
      | some (Part.Text _) => true
      | _ => false

/-- The text of the first segment of the first candidate, when there is one. -/
def firstText (resp : GenerateContentResponse) : Option GoString :=
  match resp.Candidates.head? with
  | none => none
  | some candidate =>
    match candidate.Content with
    | none => none
    | some content =>
      match content.Parts.head? with
      | some (Part.Text t) => some t
      | _ => none

/-- Is the error one of the two malformed-response errors. -/
def APIError.isMalformed : APIError → Bool
  | .callFailed _ => false
  | .noValidAnswer => true
  | .firstPartNotText => true

/-! ## The orchestration loop (`main`, lines 58-100) -/

/-- The configuration values the loop reads. -/
structure Config where
  companyName : GoString
  domainName : GoString
  productNames : List GoString
  deriving DecidableEq, Repr

/-- One pass of the loop as the environment sees it: the query taken from
`targetQueries`, what the API call returned for it, and the clock reading
`time.Now().Format(time.RFC3339)`. -/
structure Iteration where
  query : GoString
  apiResult : Except GoString GenerateContentResponse
  now : GoString

/-- The observable actions of the loop. -/
inductive Event where
  | apiCall (query : GoString)
  | logError (query : GoString) (err : APIError)
  | sleep (seconds : Nat)
  deriving DecidableEq, Repr

/-- The variable `results` together with the actions performed so far. -/
structure LoopState where
  results : List QueryResult
  trace : List Event
  deriving DecidableEq, Repr

/-- The body of the `for` loop, lines 62-99.  On an error the body logs and
`continue`s; otherwise it appends the record and sleeps one second. -/
def loopBody (tbl : Char → Char) (cfg : Config) (st : LoopState) (it : Iteration) : LoopState :=
  match callGeminiAPI it.apiResult with
  | (_, some err) =>
    { results := st.results
      trace := st.trace ++ [Event.apiCall it.query, Event.logError it.query err] }
  | (answerText, none) =>
    { results := st.results ++
        [buildResult tbl cfg.companyName cfg.domainName cfg.productNames it.query it.now answerText]
      trace := st.trace ++ [Event.apiCall it.query, Event.sleep 1] }

/-- The loop of lines 58-100. -/
def mainLoop (tbl : Char → Char) (cfg : Config) (its : List Iteration) : LoopState :=
  its.foldl (loopBody tbl cfg) { results := [], trace := [] }

/-- The number of `sleep` actions in a trace. -/
def sleepCount (trace : List Event) : Nat :=
  (trace.filter (fun e => match e with | Event.sleep _ => true | _ => false)).length

/-- Does the trace contain two API calls with no sleep between them;
`pending` says whether a call has been seen since the last sleep. -/
def callsWithoutSleep : Bool → List Event → Bool
  | _, [] => false
  | pending, Event.apiCall _ :: rest => pending || callsWithoutSleep true rest
  | _, Event.sleep _ :: rest => callsWithoutSleep false rest
  | pending, Event.logError _ _ :: rest => callsWithoutSleep pending rest

/-! ## Startup validation (`main`, lines 32-55) -/

/-- `os.Getenv`: the value of the variable, or the empty string when it is unset. -/
def Getenv (env : GoString → Option GoString) (key : GoString) : GoString :=
  (env key).getD []

/-- How the start of `main` ends: one of the `log.Fatal` exits, or the loop is
entered with the configuration read. -/
inductive Startup where
  | fatalMissingFirst
  | fatalClient (cause : GoString)
  | fatalMissingSecond
  | ready (modelName : GoString) (cfg : Config) (targetQueries : List GoString)
  deriving DecidableEq, Repr

/-- Lines 32-55; `clientErr` is the error of `genai.NewClient`, if any. -/
def startup (env : GoString → Option GoString) (clientErr : Option GoString) : Startup :=
  let geminiAPIKey := Getenv env "GEMINI_API_KEY".toList
  let geminiModelName := Getenv env "GEMINI_API_MODEL".toList
  let domainName := Getenv env "DOMAIN_NAME".toList
  let companyName := Getenv env "COMPANY_NAME".toList
  let productNames := Split (Getenv env "PRODUCT_NAMES".toList) ','
  let targetQueries := Split (Getenv env "TARGET_QUERIES".toList) '|'
  if geminiAPIKey = [] ∨ geminiModelName = [] ∨ domainName = [] then Startup.fatalMissingFirst
  else
    match clientErr with
    | some cause => Startup.fatalClient cause
    | none =>
      if companyName = [] ∨ productNames.length = 0 ∨ targetQueries.length = 0 then
        Startup.fatalMissingSecond
      else
        Startup.ready geminiModelName
          { companyName := companyName, domainName := domainName, productNames := productNames }
          targetQueries

/-- An environment given as a list of bindings. -/
def envOf (bindings : List (GoString × GoString)) : GoString → Option GoString :=
  fun key => (bindings.find? (fun b => b.1 = key)).map Prod.snd

/-! ## Summary (`printSummary`, lines 188-221) -/

/-- The three counters of lines 195-209. -/
structure Counts where
  companyMentionCount : Nat
  productMentionCount : Nat
  urlMentionCount : Nat
  deriving DecidableEq, Repr

/-- The counting loop of lines 199-209. -/
def countLoop (results : List QueryResult) : Counts :=
  results.foldl
    (fun c result =>
      { companyMentionCount :=
          if result.CompanyMentioned then c.companyMentionCount + 1 else c.companyMentionCount
        productMentionCount :=
          if result.ProductsMentioned ≠ noneSentinel then c.productMentionCount + 1
          else c.productMentionCount
        urlMentionCount :=
          if result.URLMentioned then c.urlMentionCount + 1 else c.urlMentionCount })
    { companyMentionCount := 0, productMentionCount := 0, urlMentionCount := 0 }

/-! ### `float64` arithmetic -/

/-- Rounding to the nearest integer, a tie going to the even one. -/
def roundHalfEven (q : ℚ) : ℤ :=
  if q - ⌊q⌋ < 1 / 2 then ⌊q⌋
  else if 1 / 2 < q - ⌊q⌋ then ⌊q⌋ + 1
  else if ⌊q⌋ % 2 = 0 then ⌊q⌋ else ⌊q⌋ + 1

/-- The unit in the last place of the binade of a positive `x`: `2 ^ (e - 52)`
where `2 ^ e ≤ x < 2 ^ (e + 1)`. -/
def ulp (x : ℚ) : ℚ := (2 : ℚ) ^ (Int.log 2 x - 52)

/-- Rounding of a positive number to 53 significant bits, nearest, ties to even. -/
def roundPos (x : ℚ) : ℚ := (roundHalfEven (x / ulp x) : ℚ) * ulp x

/-- Rounding to `float64` (IEEE 754 binary64, round to nearest, ties to even),
on the rationals: the value of a finite `float64` is a rational.  The exponent
range is not limited; the values that occur in `printSummary` for a slice
(counts and quotients of counts below `2 ^ 63`, times 100) lie in the normal
range, where this is the rounding the hardware performs. -/
def fl (x : ℚ) : ℚ :=
  if 0 < x then roundPos x else if x < 0 then -roundPos (-x) else 0

/-- The conversion `float64(n)` of a non-negative integer. -/
def float64 (n : Nat) : ℚ := fl (n : ℚ)

/-- The `float64` quotient `a / b`, for `b` other than zero. -/
def fdiv (a b : ℚ) : ℚ := fl (a / b)

/-- The `float64` product. -/
def fmul (a b : ℚ) : ℚ := fl (a * b)

/-- The expression of lines 213-215: `float64(count) / float64(totalQueries) * 100`. -/
def mentionRate (count totalQueries : Nat) : ℚ :=
  fmul (fdiv (float64 count) (float64 totalQueries)) 100

/-- The rate lies within the relative distance `2 ^ (-50)` of the exact value. -/
def withinRounding (rate exact : ℚ) : Prop :=
  (1 - 1 / 2 ^ (50 : ℕ)) * exact ≤ rate ∧ rate ≤ (1 + 1 / 2 ^ (50 : ℕ)) * exact

/-- The three rates of lines 213-215, as the rationals that the `float64`
values denote, and the denominator. -/
structure Rates where
  companyMentionRate : ℚ
  productMentionRate : ℚ
  urlMentionRate : ℚ
  totalQueries : Nat

/-- The function `printSummary`: `none` is the early return of line 191, taken
before any division; otherwise the rates that are printed. -/
def printSummary (results : List QueryResult) : Option Rates :=
  if results.length = 0 then none
  else
    let counts := countLoop results
    let totalQueries := results.length
    some
      { companyMentionRate := mentionRate counts.companyMentionCount totalQueries
        productMentionRate := mentionRate counts.productMentionCount totalQueries
        urlMentionRate := mentionRate counts.urlMentionCount totalQueries
        totalQueries := totalQueries }

/-! ## CSV export (`saveResultsToCSV`, lines 140-185) and package `encoding/csv` -/

/-- `unicode.IsSpace`. -/
def isSpace (r : Char) : Bool :=
  if r.toNat ≤ 0xFF then
    r = '\t' || r = '\n' || r.toNat = 0x0B || r.toNat = 0x0C || r = '\r' || r = ' ' ||
      r.toNat = 0x85 || r.toNat = 0xA0
  else
    r.toNat = 0x1680 || (0x2000 ≤ r.toNat && r.toNat ≤ 0x200A) || r.toNat = 0x2028 ||
      r.toNat = 0x2029 || r.toNat = 0x202F || r.toNat = 0x205F || r.toNat = 0x3000

/-- `(*csv.Writer).fieldNeedsQuotes` for the default `Comma = ','`. -/
def fieldNeedsQuotes (field : GoString) : Bool :=
  match field with
  | [] => false
  | r1 :: _ =>
    if field = ['\\', '.'] then true
    else if field.any (fun c => c = '\n' || c = '\r' || c = '"' || c = ',') then true
    else isSpace r1

/-- The body of a quoted field as `Write` emits it with `UseCRLF = false`:
a quote is doubled, every other rune (also `\r` and `\n`) is copied. -/
def escapeQuoted : GoString → GoString
  | [] => []
  | c :: cs => if c = '"' then '"' :: '"' :: escapeQuoted cs else c :: escapeQuoted cs

/-- One field as `Write` emits it. -/
def writeField (field : GoString) : GoString :=
  if fieldNeedsQuotes field then '"' :: (escapeQuoted field ++ ['"']) else field

/-- The fields of a record, a comma before every field but the first. -/
def writeFields : List GoString → GoString
  | [] => []
  | [field] => writeField field
  | field :: next :: rest => writeField field ++ ',' :: writeFields (next :: rest)

/-- `(*csv.Writer).Write` with the default settings: the text of one record. -/
def writeRecord (record : List GoString) : GoString :=
  writeFields record ++ ['\n']

/-- A `csv.Writer` on the created file: the records handed to `Write` so far and
the text they produced. -/
structure Writer where
  records : List (List GoString)
  out : GoString
  deriving DecidableEq, Repr

/-- `csv.NewWriter(file)`. -/
def NewWriter : Writer := { records := [], out := [] }

/-- `writer.Write(record)`. -/
def Writer.Write (w : Writer) (record : List GoString) : Writer :=
  { records := w.records ++ [record], out := w.out ++ writeRecord record }

/-- The header of line 152. -/
def header : List GoString :=
  ["query".toList, "timestamp".toList, "company_mentioned".toList, "products_mentioned".toList,
    "url_mentioned".toList, "full_response".toList]

/-- Lines 159-167: a boolean as `"true"` or `"false"`. -/
def boolField (b : Bool) : GoString :=
  if b then "true".toList else "false".toList

/-- The row of lines 169-176. -/
def row (result : QueryResult) : List GoString :=
  [result.Query, result.Timestamp, boolField result.CompanyMentioned, result.ProductsMentioned,
    boolField result.URLMentioned, result.FullResponse]

/-- The function `saveResultsToCSV`; `createErr` is the error of `os.Create`, if
any, and the writes themselves succeed. -/
def saveResultsToCSV (createErr : Option GoString) (results : List QueryResult) :
    Except GoString Writer :=
  match createErr with
  | some err => .error err
  | none => .ok (results.foldl (fun w result => w.Write (row result)) (NewWriter.Write header))

/-- The errors of `csv.Reader`, and `exhausted` for the recursion bound of this
model (every step consumes input, so the bound is never met). -/
inductive ParseErr where
  | ErrBareQuote
  | ErrQuote
  | ErrFieldCount
  | exhausted
  deriving DecidableEq, Repr

/-- `ReadSlice('\n')`: the input up to and including the first newline, and what follows. -/
def readSlice : GoString → GoString × GoString
  | [] => ([], [])
  | c :: cs => if c = '\n' then (['\n'], cs) else ((readSlice cs).1.cons c, (readSlice cs).2)

/-- `lengthNL`: 1 when the line ends in a newline, else 0. -/
def lengthNL (b : GoString) : Nat :=
  if b.getLast? = some '\n' then 1 else 0

/-- `(*csv.Reader).readLine`: the line, whether the end of input was met with no
data, and the rest of the input.  A `\r` before the end of input is dropped
and a final `\r\n` becomes `\n`. -/
def readLine (input : GoString) : GoString × Bool × GoString :=
  let line := (readSlice input).1
  let rest := (readSlice input).2
  let foundDelim := decide (line.getLast? = some '\n')
  let eof := decide (line.length = 0)
  let line := if line.length > 0 ∧ ¬ foundDelim ∧ line.getLast? = some '\r' then line.dropLast else line
  let line :=
    if line.length ≥ 2 ∧ line.dropLast.getLast? = some '\r' ∧ line.getLast? = some '\n' then
      line.dropLast.dropLast ++ ['\n']
    else line
  (line, eof, rest)

/-- The `parseField` loop of `readRecord` with the default settings (no lazy
quotes, no trimming).  `quoted` is `none` at the start of a field and
`some buf` inside a quoted field whose text so far is `buf`; `line` is the
unread part of the current line, `rest` the input after it, `acc` the fields
already read.  The result is the record and the input left. -/
def parseField : Nat → Option GoString → GoString → GoString → List GoString →
    Except ParseErr (List GoString × GoString)
  | 0, _, _, _, _ => .error .exhausted
  | fuel + 1, none, line, rest, acc =>
    if line.head? ≠ some '"' then
      match (line.span (fun c => c != ',')).2 with
      | _ :: line1 =>
        let field := (line.span (fun c => c != ',')).1
        if field.contains '"' then .error .ErrBareQuote
        else parseField fuel none line1 rest (acc ++ [field])
      | [] =>
        let field := line.take (line.length - lengthNL line)
        if field.contains '"' then .error .ErrBareQuote
        else .ok (acc ++ [field], rest)
    else parseField fuel (some []) line.tail rest acc
  | fuel + 1, some buf, line, rest, acc =>
    match (line.span (fun c => c != '"')).2 with
    | _ :: line1 =>
      let buf1 := buf ++ (line.span (fun c => c != '"')).1
      match line1 with
      | '"' :: line2 => parseField fuel (some (buf1 ++ ['"'])) line2 rest acc
      | ',' :: line2 => parseField fuel none line2 rest (acc ++ [buf1])
      | _ =>
        if lengthNL line1 = line1.length then .ok (acc ++ [buf1], rest)
        else .error .ErrQuote
    | [] =>
      if line.length > 0 then
        parseField fuel (some (buf ++ line)) (readLine rest).1 (readLine rest).2.2 acc
      else .error .ErrQuote

/-- The first loop of `readRecord`: read a line, skipping empty ones; `none` at
the end of the input. -/
def nextLine : Nat → GoString → Option (GoString × GoString)
  | 0, _ => none
  | fuel + 1, input =>
    if (readLine input).2.1 then none
    else if (readLine input).1.length = lengthNL (readLine input).1 then
      nextLine fuel (readLine input).2.2
    else some ((readLine input).1, (readLine input).2.2)

/-- `(*csv.Reader).readRecord`: `ok none` is `io.EOF`; otherwise the record, the
input left and the value of `FieldsPerRecord` afterwards. -/
def readRecord (input : GoString) (fieldsPerRecord : Nat) :
    Except ParseErr (Option (List GoString × GoString × Nat)) :=
  match nextLine (input.length + 1) input with
  | none => .ok none
  | some (line, rest) =>
    match parseField (line.length + rest.length + 2) none line rest [] with
    | .error e => .error e
    | .ok (dst, rest1) =>
      if fieldsPerRecord > 0 then
        if dst.length ≠ fieldsPerRecord then .error .ErrFieldCount
        else .ok (some (dst, rest1, fieldsPerRecord))
      else .ok (some (dst, rest1, dst.length))

/-- The loop of `(*csv.Reader).ReadAll`. -/
def readAllLoop : Nat → GoString → Nat → List (List GoString) →
    Except ParseErr (List (List GoString))
  | 0, _, _, _ => .error .exhausted
  | fuel + 1, input, fieldsPerRecord, records =>
    match readRecord input fieldsPerRecord with
    | .error e => .error e
    | .ok none => .ok records
    | .ok (some (record, rest, fieldsPerRecord1)) =>
      readAllLoop fuel rest fieldsPerRecord1 (records ++ [record])

/-- `csv.NewReader(text).ReadAll()` with the default settings. -/
def ReadAll (text : GoString) : Except ParseErr (List (List GoString)) :=
  readAllLoop (text.length + 1) text 0 []

/-- Does the text contain a `\r` directly followed by `\n`. -/
def hasCRLF : GoString → Bool
  | [] => false
  | c :: cs => (c == '\r' && cs.head? == some '\n') || hasCRLF cs

/-- A line as `readLine` returns it from text that ends in a newline: some
runes other than `\n`, then `\n`. -/
def IsLine (line : GoString) : Prop :=
  ∃ pre : GoString, line = pre ++ ['\n'] ∧ '\n' ∉ pre

/-- Text that can be joined to other such text without forming `\r\n`: it holds
no `\r\n`, does not start with `\n` and does not end with `\r`. -/
def Safe (text : GoString) : Prop :=
  hasCRLF text = false ∧ text.head? ≠ some '\n' ∧ text.getLast? ≠ some '\r'

/-! ## Reference descriptions used in the statements -/

/-- The record the specification expects for one iteration: none when the call
failed, else the record with the prompt and the answer. -/
def recordOf (tbl : Char → Char) (cfg : Config) (it : Iteration) : Option QueryResult :=
  match callGeminiAPI it.apiResult with
  | (_, some _) => none
  | (answerText, none) =>
    some (buildResult tbl cfg.companyName cfg.domainName cfg.productNames it.query it.now
      answerText)

/-- The prompt and the answer of an iteration whose call returned without error. -/
def answered (it : Iteration) : Option (GoString × GoString) :=
  match callGeminiAPI it.apiResult with
  | (_, some _) => none
  | (answerText, none) => some (it.query, answerText)

/-- The text of a list of records, each written by `Write` in turn. -/
def writeAll : List (List GoString) → GoString
  | [] => []
  | record :: rest => writeRecord record ++ writeAll rest

/-- The environment with the four scalar variables set and `PRODUCT_NAMES` and
`TARGET_QUERIES` unset. -/
def envWithoutLists : GoString → Option GoString :=
  envOf
    [("GEMINI_API_KEY".toList, "key".toList), ("GEMINI_API_MODEL".toList, "gemini-pro".toList),
      ("DOMAIN_NAME".toList, "acme.example".toList), ("COMPANY_NAME".toList, "Acme".toList)]

/-- A configuration for the examples. -/
def sampleConfig : Config :=
  { companyName := "Acme".toList
    domainName := "acme.example".toList
    productNames := ["Widget".toList, "Gadget".toList] }

/-- Two queries: the call for the first fails, the call for the second is answered. -/
def failThenAnswer : List Iteration :=
  [{ query := "q1".toList, apiResult := .error "quota exceeded".toList, now := "t1".toList },
    { query := "q2".toList
      apiResult :=
        .ok { Candidates :=
                [{ Content := some { Parts := [Part.Text "Try Acme".toList], Role := "model".toList } }] }
      now := "t2".toList }]

/-- Three results: the company is mentioned in the first, a product in the
first two, the domain in none. -/
def sampleResults : List QueryResult :=
  [{ Query := "q1".toList, Timestamp := "t1".toList, CompanyMentioned := true
     ProductsMentioned := "Widget".toList, URLMentioned := false, FullResponse := "a".toList },
    { Query := "q2".toList, Timestamp := "t2".toList, CompanyMentioned := false
      ProductsMentioned := "Gadget".toList, URLMentioned := false, FullResponse := "b".toList },
    { Query := "q3".toList, Timestamp := "t3".toList, CompanyMentioned := false
      ProductsMentioned := noneSentinel, URLMentioned := false, FullResponse := "c".toList }]

/-- One result whose answer holds a carriage return followed by a newline. -/
def crlfResult : QueryResult :=
  { Query := "q".toList, Timestamp := "t".toList, CompanyMentioned := true
    ProductsMentioned := noneSentinel, URLMentioned := false
    FullResponse := ['a', '\r', '\n', 'b'] }

/-- One result whose query and answer hold a comma, quotes, a lone carriage
return and newlines. -/
def quotedResult : QueryResult :=
  { Query := "say \"hi\", then stop".toList, Timestamp := "t".toList, CompanyMentioned := true
    ProductsMentioned := "Widget, Gadget".toList, URLMentioned := false
    FullResponse := ['x', '\r', 'y', '\n', '\n', '"', 'z', '"', ',', '\n'] }

/-! ## Lemmas on the string primitives -/

theorem indexFrom_neg_iff (substr : GoString) (s : GoString) (i : Nat) :
    0 ≤ indexFrom substr s i ↔ substr <:+: s := by
  induction s generalizing i with
  | nil =>
    unfold indexFrom
    by_cases h : substr.isPrefixOf [] = true
    · rw [if_pos h]
      have : substr <+: [] := List.isPrefixOf_iff_prefix.mp h
      exact ⟨fun _ => this.isInfix, fun _ => Int.ofNat_nonneg i⟩
    · rw [if_neg h]
      constructor
      · intro h0; simp at h0
      · intro hin
        exfalso; apply h
        have : substr = [] := List.eq_nil_of_infix_nil hin
        subst this; rfl
  | cons c cs ih =>
    unfold indexFrom
    by_cases h : substr.isPrefixOf (c :: cs) = true
    · rw [if_pos h]
      have : substr <+: (c :: cs) := List.isPrefixOf_iff_prefix.mp h
      exact ⟨fun _ => this.isInfix, fun _ => Int.ofNat_nonneg i⟩
    · rw [if_neg h, ih (i + 1)]
      constructor
      · intro hin
        exact hin.trans (List.suffix_cons c cs).isInfix
      · intro hin
        rcases List.infix_cons_iff.mp hin with hp | hi
        · exact absurd (List.isPrefixOf_iff_prefix.mpr hp) h
        · exact hi

theorem Contains_iff (s substr : GoString) : Contains s substr = true ↔ substr <:+: s := by
  unfold Contains Index
  rw [decide_eq_true_iff]
  exact indexFrom_neg_iff substr s 0

theorem foldl_append_filter {α : Type} (p : α → Bool) (l init : List α) :
    l.foldl (fun acc x => if p x then acc ++ [x] else acc) init = init ++ l.filter p := by
  induction l generalizing init with
  | nil => simp
  | cons x xs ih =>
    rw [List.foldl_cons, ih]
    by_cases hx : p x = true
    · simp [hx]
    · simp [hx]

theorem mentionedProducts_eq_filter (tbl : Char → Char) (answerText : GoString)
    (productNames : List GoString) :
    mentionedProducts tbl answerText productNames =
      productNames.filter (fun p => mentioned tbl answerText p) := by
  unfold mentionedProducts
  rw [foldl_append_filter (fun p => mentioned tbl answerText p) productNames []]
  rfl

theorem mentionedProducts_mem (tbl : Char → Char) (answerText : GoString)
    (productNames : List GoString) (p : GoString)
    (hp : p ∈ mentionedProducts tbl answerText productNames) : p ∈ productNames := by
  rw [mentionedProducts_eq_filter] at hp
  exact (List.mem_filter.mp hp).1

/-! ## C1 -/

/-- C1: the matched product list is the configured list filtered by "lowercased
product is a substring of the lowercased answer"; it is a sub-sequence of the
configured list in the original order and holds only configured products. -/
theorem C1_matched_products_filter (tbl : Char → Char) (answerText : GoString)
    (productNames : List GoString) :
    mentionedProducts tbl answerText productNames =
        productNames.filter
          (fun p => decide (ToLower tbl p <:+: ToLower tbl answerText)) ∧
      List.Sublist (mentionedProducts tbl answerText productNames) productNames ∧
      ∀ p ∈ mentionedProducts tbl answerText productNames, p ∈ productNames := by
  have hfilter : mentionedProducts tbl answerText productNames =
      productNames.filter (fun p => decide (ToLower tbl p <:+: ToLower tbl answerText)) := by
    rw [mentionedProducts_eq_filter]
    apply List.filter_congr
    intro p _
    unfold mentioned
    rw [Bool.eq_iff_iff, Contains_iff, decide_eq_true_iff]
  refine ⟨hfilter, ?_, ?_⟩
  · rw [hfilter]; exact List.filter_sublist _
  · intro p hp
    rw [hfilter] at hp
    exact (List.mem_filter.mp hp).1

/-! ## C2 -/

theorem Join_eq_nil_iff (l : List GoString) :
    Join l productSep = [] ↔ l = [] ∨ l = [[]] := by
  match l with
  | [] => simp [Join]
  | [a] => simp [Join]
  | a :: b :: rest => simp [Join, productSep]

theorem Join_eq_sentinel_iff (l : List GoString) :
    Join l productSep = noneSentinel ↔ l = [noneSentinel] := by
  match l with
  | [] => simp [Join, noneSentinel]
  | [a] => simp [Join]
  | a :: b :: rest =>
    constructor
    · intro h
      have hmem : ',' ∈ Join (a :: b :: rest) productSep := by
        simp [Join, productSep]
      rw [h] at hmem
      exact absurd hmem (by decide)
    · intro h
      simp at h

theorem productsMentioned_eq_sentinel_iff (tbl : Char → Char) (answerText : GoString)
    (productNames : List GoString) :
    productsMentioned tbl answerText productNames = noneSentinel ↔
      (mentionedProducts tbl answerText productNames = [] ∨
        mentionedProducts tbl answerText productNames = [[]] ∨
        mentionedProducts tbl answerText productNames = [noneSentinel]) := by
  unfold productsMentioned
  by_cases hj : Join (mentionedProducts tbl answerText productNames) productSep = []
  · simp only [hj, if_true, true_iff]
    rcases (Join_eq_nil_iff _).mp hj with h | h
    · exact Or.inl h
    · exact Or.inr (Or.inl h)
  · simp only [hj, if_false]
    rw [Join_eq_sentinel_iff]
    constructor
    · intro h; exact Or.inr (Or.inr h)
    · rintro (h | h | h)
      · exact absurd ((Join_eq_nil_iff _).mpr (Or.inl h)) hj
      · exact absurd ((Join_eq_nil_iff _).mpr (Or.inr h)) hj
      · exact h

/-- C2 (as stated, refuted): with the product list `[""]`, which is what an
unset `PRODUCT_NAMES` splits into, the empty name is found in the answer, so the
matched list is not empty, and yet the display string is the sentinel and the
record does not count as a product mention. -/
theorem C2_counterexample :
    mentionedProducts identityTable "Try our Gadget today".toList [[]] ≠ [] ∧
      productsMentioned identityTable "Try our Gadget today".toList [[]] = noneSentinel ∧
      countsAsProductMention
        (buildResult identityTable "Acme".toList "acme.example".toList [[]] "q".toList
          "2024-01-01T00:00:00Z".toList "Try our Gadget today".toList) = false := by
  refine ⟨?_, ?_, ?_⟩ <;> decide

/-- C2 (amended): the display string is the sentinel exactly when the matched
names joined with ", " give the empty string or the sentinel itself, that is
when the matched list is empty, is one empty name, or is the one name "なし";
otherwise it is the matched names joined with ", " and the record counts as a
product mention.  When no configured name is empty or equal to the sentinel
this is the claim as written. -/
theorem C2_products_display (tbl : Char → Char) (companyName domainName : GoString)
    (productNames : List GoString) (query now answerText : GoString) :
    (productsMentioned tbl answerText productNames = noneSentinel ↔
        (mentionedProducts tbl answerText productNames = [] ∨
          mentionedProducts tbl answerText productNames = [[]] ∨
          mentionedProducts tbl answerText productNames = [noneSentinel])) ∧
      (¬ (mentionedProducts tbl answerText productNames = [] ∨
            mentionedProducts tbl answerText productNames = [[]] ∨
            mentionedProducts tbl answerText productNames = [noneSentinel]) →
        productsMentioned tbl answerText productNames =
            Join (mentionedProducts tbl answerText productNames) productSep ∧
          countsAsProductMention
            (buildResult tbl companyName domainName productNames query now answerText) = true) ∧
      ([] ∉ productNames → noneSentinel ∉ productNames →
        (productsMentioned tbl answerText productNames = noneSentinel ↔
            mentionedProducts tbl answerText productNames = []) ∧
          (mentionedProducts tbl answerText productNames ≠ [] →
            productsMentioned tbl answerText productNames =
                Join (mentionedProducts tbl answerText productNames) productSep ∧
              countsAsProductMention
                (buildResult tbl companyName domainName productNames query now answerText) =
                  true)) := by
  have hchar := productsMentioned_eq_sentinel_iff tbl answerText productNames
  have hsecond : ¬ (mentionedProducts tbl answerText productNames = [] ∨
        mentionedProducts tbl answerText productNames = [[]] ∨
        mentionedProducts tbl answerText productNames = [noneSentinel]) →
      productsMentioned tbl answerText productNames =
          Join (mentionedProducts tbl answerText productNames) productSep ∧
        countsAsProductMention
          (buildResult tbl companyName domainName productNames query now answerText) = true := by
    intro hn
    have hne : productsMentioned tbl answerText productNames ≠ noneSentinel :=
      fun h => hn (hchar.mp h)
    constructor
    · have hj : Join (mentionedProducts tbl answerText productNames) productSep ≠ [] := by
        intro h
        rcases (Join_eq_nil_iff _).mp h with h1 | h1
        · exact hn (Or.inl h1)
        · exact hn (Or.inr (Or.inl h1))
      unfold productsMentioned
      simp only [hj, if_false]
    · unfold countsAsProductMention buildResult
      simpa using hne
  refine ⟨hchar, hsecond, ?_⟩
  intro hempty hsent
  have hsub := mentionedProducts_mem tbl answerText productNames
  have h1 : mentionedProducts tbl answerText productNames ≠ [[]] := by
    intro h
    exact hempty (hsub [] (by rw [h]; simp))
  have h2 : mentionedProducts tbl answerText productNames ≠ [noneSentinel] := by
    intro h
    exact hsent (hsub noneSentinel (by rw [h]; simp))
  constructor
  · rw [hchar]
    constructor
    · rintro (h | h | h)
      · exact h
      · exact absurd h h1
      · exact absurd h h2
    · intro h; exact Or.inl h
  · intro hne
    apply hsecond
    rintro (h | h | h)
    · exact hne h
    · exact h1 h
    · exact h2 h

/-- C2 witness: the claim's own example, product list `["Widget", "Gadget"]` and
the answer "Try our Gadget today". -/
theorem C2_products_display_witness :
    productsMentioned identityTable "Try our Gadget today".toList
        ["Widget".toList, "Gadget".toList] = "Gadget".toList ∧
      countsAsProductMention
        (buildResult identityTable "Acme".toList "acme.example".toList
          ["Widget".toList, "Gadget".toList] "q".toList "2024-01-01T00:00:00Z".toList
          "Try our Gadget today".toList) = true :=
  ⟨by decide,
    (((C2_products_display identityTable "Acme".toList "acme.example".toList
      ["Widget".toList, "Gadget".toList] "q".toList "2024-01-01T00:00:00Z".toList
      "Try our Gadget today".toList).2.2 (by decide) (by decide)).2 (by decide)).2⟩

/-! ## C3 -/

theorem unicodeToLower_idem (tbl : Char → Char)
    (htbl : ∀ r : Char, 0x7F < r.toNat → unicodeToLower tbl (tbl r) = tbl r) (r : Char) :
    unicodeToLower tbl (unicodeToLower tbl r) = unicodeToLower tbl r := by
  by_cases hascii : r.toNat ≤ 0x7F
  · by_cases hup : 'A'.toNat ≤ r.toNat ∧ r.toNat ≤ 'Z'.toNat
    · have hr : r = Char.ofNat r.toNat := (Char.ofNat_toNat r).symm
      have h1 : (65 : Nat) ≤ r.toNat := hup.1
      have h2 : r.toNat ≤ 90 := hup.2
      generalize r.toNat = n at hr h1 h2
      subst hr
      interval_cases n <;> rfl
    · have : unicodeToLower tbl r = r := by
        unfold unicodeToLower
        rw [if_pos hascii, if_neg hup]
      rw [this, this]
  · have : unicodeToLower tbl r = tbl r := by
      unfold unicodeToLower
      rw [if_neg hascii]
    rw [this]
    exact htbl r (by omega)

theorem ToLower_idem (tbl : Char → Char)
    (htbl : ∀ r : Char, 0x7F < r.toNat → unicodeToLower tbl (tbl r) = tbl r) (s : GoString) :
    ToLower tbl (ToLower tbl s) = ToLower tbl s := by
  unfold ToLower
  rw [List.map_map]
  apply List.map_congr_left
  intro r _
  exact unicodeToLower_idem tbl htbl r

/-- C3: provided the library's case table is idempotent above ASCII, the mention
test gives the same result on `(s, t)` as on `(lower s, lower t)`; it is
ordinary substring containment of the lowercased operands; "Acme" is found in
"We recommend acme for this."; and the empty needle is always contained. -/
theorem C3_mention_case_insensitive (tbl : Char → Char)
    (htbl : ∀ r : Char, 0x7F < r.toNat → unicodeToLower tbl (tbl r) = tbl r)
    (s t : GoString) :
    mentioned tbl s t = mentioned tbl (ToLower tbl s) (ToLower tbl t) ∧
      (mentioned tbl s t = true ↔ ToLower tbl t <:+: ToLower tbl s) ∧
      mentioned tbl "We recommend acme for this.".toList "Acme".toList = true ∧
      mentioned tbl s [] = true := by
  refine ⟨?_, ?_, ?_, ?_⟩
  · unfold mentioned
    rw [ToLower_idem tbl htbl s, ToLower_idem tbl htbl t]
  · unfold mentioned
    exact Contains_iff _ _
  · rfl
  · unfold mentioned
    rw [Contains_iff]
    exact List.nil_infix

/-- C3 witness: the table `kelvinTable`, with the claim's example strings. -/
theorem C3_mention_case_insensitive_witness :
    mentioned kelvinTable "We recommend acme for this.".toList "Acme".toList =
        mentioned kelvinTable (ToLower kelvinTable "We recommend acme for this.".toList)
          (ToLower kelvinTable "Acme".toList) ∧
      mentioned kelvinTable "We recommend acme for this.".toList "Acme".toList = true :=
  have h := C3_mention_case_insensitive kelvinTable
    (by
      intro r hr
      have hna : ¬ r.toNat ≤ 0x7F := by omega
      by_cases hk : r = Char.ofNat 0x212A
      · subst hk; rfl
      · have e : kelvinTable r = r := if_neg hk
        rw [e]
        unfold unicodeToLower
        rw [if_neg hna]
        exact e)
    "We recommend acme for this.".toList "Acme".toList
  ⟨h.1, h.2.2.1⟩

/-! ## C4 -/

/-- C4: on a structured response `callGeminiAPI` returns the text of the first
segment of the first candidate with no error when the response has a candidate
whose content is present, has a segment, and whose first segment is text; in
every other case, zero candidates included, it returns the empty answer with a
malformed-response error. -/
theorem C4_callGeminiAPI_response (resp : GenerateContentResponse) :
    ((wellFormed resp = true ∧
          ∃ t, firstText resp = some t ∧ callGeminiAPI (.ok resp) = (t, none)) ∨
        (wellFormed resp = false ∧
          ∃ e, e.isMalformed = true ∧ callGeminiAPI (.ok resp) = ([], some e))) ∧
      ((callGeminiAPI (.ok resp)).2 = none ↔ wellFormed resp = true) ∧
      callGeminiAPI (.ok { Candidates := [] }) = ([], some APIError.noValidAnswer) := by
  obtain ⟨candidates⟩ := resp
  match candidates with
  | [] => simp [wellFormed, callGeminiAPI, APIError.isMalformed]
  | ⟨none⟩ :: _ => simp [wellFormed, callGeminiAPI, APIError.isMalformed]
  | ⟨some ⟨[], _⟩⟩ :: _ => simp [wellFormed, callGeminiAPI, APIError.isMalformed]
  | ⟨some ⟨Part.Text t :: _, _⟩⟩ :: _ => simp [wellFormed, firstText, callGeminiAPI]
  | ⟨some ⟨Part.Blob _ _ :: _, _⟩⟩ :: _ => simp [wellFormed, callGeminiAPI, APIError.isMalformed]
  | ⟨some ⟨Part.FunctionCall _ :: _, _⟩⟩ :: _ =>
    simp [wellFormed, callGeminiAPI, APIError.isMalformed]
  | ⟨some ⟨Part.FunctionResponse _ :: _, _⟩⟩ :: _ =>
    simp [wellFormed, callGeminiAPI, APIError.isMalformed]

/-! ## C5 -/

theorem loopBody_results (tbl : Char → Char) (cfg : Config) (st : LoopState) (it : Iteration) :
    (loopBody tbl cfg st it).results = st.results ++ (recordOf tbl cfg it).toList := by
  unfold loopBody recordOf
  rcases hcall : callGeminiAPI it.apiResult with ⟨answerText, err⟩
  cases err <;> simp

theorem foldl_loopBody_results (tbl : Char → Char) (cfg : Config) (its : List Iteration)
    (st : LoopState) :
    (its.foldl (loopBody tbl cfg) st).results = st.results ++ its.filterMap (recordOf tbl cfg) := by
  induction its generalizing st with
  | nil => simp
  | cons it rest ih =>
    rw [List.foldl_cons, ih, loopBody_results, List.filterMap_cons]
    cases recordOf tbl cfg it <;> simp

theorem recordOf_fields (tbl : Char → Char) (cfg : Config) (it : Iteration) :
    (recordOf tbl cfg it).map (fun r => (r.Query, r.FullResponse)) = answered it := by
  unfold recordOf answered
  rcases hcall : callGeminiAPI it.apiResult with ⟨answerText, err⟩
  cases err <;> simp [buildResult]

/-- C5: the result list after the loop holds one record for each query whose
call returned without error, in query order, with `Query` the prompt and
`FullResponse` the answer; a failed query adds nothing and the queries after
it are still processed. -/
theorem C5_loop_results (tbl : Char → Char) (cfg : Config) (its : List Iteration) :
    (mainLoop tbl cfg its).results = its.filterMap (recordOf tbl cfg) ∧
      (mainLoop tbl cfg its).results.map (fun r => (r.Query, r.FullResponse)) =
        its.filterMap answered ∧
      (mainLoop tbl cfg its).results.length =
        (its.filter (fun it => (callGeminiAPI it.apiResult).2.isNone)).length ∧
      ∀ before after : List Iteration,
        (mainLoop tbl cfg (before ++ after)).results =
          (mainLoop tbl cfg before).results ++ (mainLoop tbl cfg after).results := by
  have hres : ∀ l : List Iteration,
      (mainLoop tbl cfg l).results = l.filterMap (recordOf tbl cfg) := by
    intro l
    unfold mainLoop
    rw [foldl_loopBody_results]
    simp
  refine ⟨hres its, ?_, ?_, ?_⟩
  · rw [hres, List.map_filterMap]
    apply List.filterMap_congr
    intro it _
    exact recordOf_fields tbl cfg it
  · rw [hres]
    have hsome : ∀ it : Iteration,
        (recordOf tbl cfg it).isSome = (callGeminiAPI it.apiResult).2.isNone := by
      intro it
      unfold recordOf
      rcases callGeminiAPI it.apiResult with ⟨answerText, err⟩
      cases err <;> rfl
    induction its with
    | nil => simp
    | cons it rest ih =>
      rw [List.filterMap_cons, List.filter_cons]
      have h := hsome it
      cases hrec : recordOf tbl cfg it with
      | none =>
        rw [hrec] at h
        rw [← h]
        simpa using ih
      | some r =>
        rw [hrec] at h
        rw [← h]
        simpa using ih
  · intro before after
    rw [hres, hres, hres, List.filterMap_append]

/-! ## C6 -/

theorem foldl_Write (results : List QueryResult) (w : Writer) :
    results.foldl (fun w result => w.Write (row result)) w =
      { records := w.records ++ results.map row
        out := w.out ++ writeAll (results.map row) } := by
  induction results generalizing w with
  | nil => simp [writeAll]
  | cons r rest ih =>
    rw [List.foldl_cons, ih]
    simp [Writer.Write, writeAll]

theorem saveResultsToCSV_ok (results : List QueryResult) :
    saveResultsToCSV none results =
      .ok { records := header :: results.map row
            out := writeAll (header :: results.map row) } := by
  unfold saveResultsToCSV
  rw [foldl_Write]
  simp [NewWriter, Writer.Write, writeAll]

/-- C6: when the file is created, the records handed to the CSV writer are the
fixed header followed by one six-field row per result in order, so there are
`len(results) + 1` of them, and only the header for the empty list. -/
theorem C6_csv_records (results : List QueryResult) :
    (saveResultsToCSV none results).map Writer.records =
        .ok (header ::
          results.map (fun r =>
            [r.Query, r.Timestamp, if r.CompanyMentioned then "true".toList else "false".toList,
              r.ProductsMentioned, if r.URLMentioned then "true".toList else "false".toList,
              r.FullResponse])) ∧
      header = ["query".toList, "timestamp".toList, "company_mentioned".toList,
        "products_mentioned".toList, "url_mentioned".toList, "full_response".toList] ∧
      (saveResultsToCSV none results).map (fun w => w.records.length) =
        .ok (results.length + 1) ∧
      (saveResultsToCSV none results).map
          (fun w => w.records.all (fun record => record.length = 6)) = .ok true ∧
      (saveResultsToCSV none []).map Writer.records = .ok [header] := by
  rw [saveResultsToCSV_ok, saveResultsToCSV_ok]
  refine ⟨rfl, rfl, ?_, ?_, rfl⟩
  · simp [Except.map]
  · simp [Except.map, header, row]

/-! ## C8 -/

theorem foldl_counts (results : List QueryResult) (c : Counts) :
    results.foldl
        (fun c result =>
          ({ companyMentionCount :=
              if result.CompanyMentioned then c.companyMentionCount + 1 else c.companyMentionCount
             productMentionCount :=
              if result.ProductsMentioned ≠ noneSentinel then c.productMentionCount + 1
              else c.productMentionCount
             urlMentionCount :=
              if result.URLMentioned then c.urlMentionCount + 1 else c.urlMentionCount } : Counts))
        c =
      { companyMentionCount :=
          c.companyMentionCount + (results.filter (fun r => r.CompanyMentioned)).length
        productMentionCount :=
          c.productMentionCount +
            (results.filter (fun r => decide (r.ProductsMentioned ≠ noneSentinel))).length
        urlMentionCount :=
          c.urlMentionCount + (results.filter (fun r => r.URLMentioned)).length } := by
  induction results generalizing c with
  | nil => simp
  | cons r rest ih =>
    rw [List.foldl_cons, ih]
    simp only [List.filter_cons]
    by_cases h1 : r.CompanyMentioned = true <;>
      by_cases h2 : r.ProductsMentioned = noneSentinel <;>
      by_cases h3 : r.URLMentioned = true <;>
      simp [h1, h2, h3] <;> omega

theorem countLoop_eq (results : List QueryResult) :
    countLoop results =
      { companyMentionCount := (results.filter (fun r => r.CompanyMentioned)).length
        productMentionCount :=
          (results.filter (fun r => decide (r.ProductsMentioned ≠ noneSentinel))).length
        urlMentionCount := (results.filter (fun r => r.URLMentioned)).length } := by
  unfold countLoop
  rw [foldl_counts]
  simp

theorem roundHalfEven_le_add (q : ℚ) : (roundHalfEven q : ℚ) ≤ q + 1 / 2 := by
  have h1 : (⌊q⌋ : ℚ) ≤ q := Int.floor_le q
  unfold roundHalfEven
  split_ifs with ha hb hc
  · linarith
  · push_cast; linarith [Int.lt_floor_add_one q]
  · linarith
  · push_cast
    have : q - ⌊q⌋ = 1 / 2 := le_antisymm (not_lt.mp hb) (not_lt.mp ha)
    linarith

theorem sub_le_roundHalfEven (q : ℚ) : q - 1 / 2 ≤ (roundHalfEven q : ℚ) := by
  have h1 : (⌊q⌋ : ℚ) ≤ q := Int.floor_le q
  have h2 : q < ⌊q⌋ + 1 := Int.lt_floor_add_one q
  unfold roundHalfEven
  split_ifs with ha hb hc
  · linarith
  · push_cast; linarith
  · have : q - ⌊q⌋ = 1 / 2 := le_antisymm (not_lt.mp hb) (not_lt.mp ha)
    linarith
  · push_cast; linarith

theorem roundHalfEven_le_int (q : ℚ) (N : ℤ) (h : q ≤ N) : roundHalfEven q ≤ N := by
  have h1 := roundHalfEven_le_add q
  have h2 : ((roundHalfEven q : ℤ) : ℚ) < (N : ℚ) + 1 := by linarith
  have h3 : roundHalfEven q < N + 1 := by exact_mod_cast h2
  omega

theorem int_le_roundHalfEven (q : ℚ) (N : ℤ) (h : (N : ℚ) ≤ q) : N ≤ roundHalfEven q := by
  have h1 := sub_le_roundHalfEven q
  have h2 : (N : ℚ) - 1 < ((roundHalfEven q : ℤ) : ℚ) := by linarith
  have h3 : N - 1 < roundHalfEven q := by exact_mod_cast h2
  omega

theorem roundHalfEven_mono {p q : ℚ} (h : p ≤ q) : roundHalfEven p ≤ roundHalfEven q := by
  have hfl : ⌊p⌋ ≤ ⌊q⌋ := Int.floor_mono h
  rcases lt_or_eq_of_le hfl with hlt | heq
  · have h1 : roundHalfEven p ≤ ⌊p⌋ + 1 := by
      apply roundHalfEven_le_int
      push_cast
      linarith [Int.lt_floor_add_one p]
    have h2 : ⌊q⌋ ≤ roundHalfEven q := int_le_roundHalfEven q _ (Int.floor_le q)
    omega
  · unfold roundHalfEven
    rw [heq]
    split_ifs <;> first | omega | (exfalso; linarith)

theorem roundHalfEven_eq (q : ℚ) (m : ℤ) (h1 : (m : ℚ) - 1 / 2 < q) (h2 : q < (m : ℚ) + 1 / 2) :
    roundHalfEven q = m := by
  have ha := roundHalfEven_le_add q
  have hb := sub_le_roundHalfEven q
  have h3 : ((roundHalfEven q : ℤ) : ℚ) < (m : ℚ) + 1 := by linarith
  have h4 : (m : ℚ) - 1 < ((roundHalfEven q : ℤ) : ℚ) := by linarith
  have h5 : roundHalfEven q < m + 1 := by exact_mod_cast h3
  have h6 : m - 1 < roundHalfEven q := by exact_mod_cast h4
  omega

theorem ulp_pos (x : ℚ) : 0 < ulp x := by
  unfold ulp
  positivity

theorem ulp_eq_of_binade (x : ℚ) (e : ℤ) (hx : 0 < x) (h1 : (2 : ℚ) ^ e ≤ x)
    (h2 : x < (2 : ℚ) ^ (e + 1)) : ulp x = (2 : ℚ) ^ (e - 52) := by
  have hlog : Int.log 2 x = e := by
    apply le_antisymm
    · have : Int.log 2 x < e + 1 := by
        rw [← Int.lt_zpow_iff_log_lt (by norm_num) hx]
        exact_mod_cast h2
      omega
    · rw [← Int.zpow_le_iff_le_log (by norm_num) hx]
      exact_mod_cast h1
  unfold ulp
  rw [hlog]

theorem pow52_mul_ulp (x : ℚ) : (2 : ℚ) ^ (52 : ℕ) * ulp x = (2 : ℚ) ^ (Int.log 2 x) := by
  unfold ulp
  rw [← zpow_natCast, ← zpow_add₀ (by norm_num : (2 : ℚ) ≠ 0)]
  congr 1
  push_cast
  ring

theorem pow53_mul_ulp (x : ℚ) : (2 : ℚ) ^ (53 : ℕ) * ulp x = (2 : ℚ) ^ (Int.log 2 x + 1) := by
  unfold ulp
  rw [← zpow_natCast, ← zpow_add₀ (by norm_num : (2 : ℚ) ≠ 0)]
  congr 1
  push_cast
  ring

theorem binade_lower (x : ℚ) (hx : 0 < x) : (2 : ℚ) ^ (52 : ℕ) * ulp x ≤ x := by
  have h := Int.zpow_log_le_self (b := 2) (r := x) (by norm_num) hx
  rw [pow52_mul_ulp]
  exact_mod_cast h

theorem binade_upper (x : ℚ) : x < (2 : ℚ) ^ (53 : ℕ) * ulp x := by
  have h := Int.lt_zpow_succ_log_self (b := 2) (by norm_num) x
  rw [pow53_mul_ulp]
  exact_mod_cast h

/-- One rounding of a positive number changes it by at most half a unit in the
last place, which is at most the fraction `2 ^ (-53)` of the number. -/
theorem roundPos_error (x : ℚ) (hx : 0 < x) :
    (1 - 1 / 2 ^ (53 : ℕ)) * x ≤ roundPos x ∧ roundPos x ≤ (1 + 1 / 2 ^ (53 : ℕ)) * x := by
  have hu := ulp_pos x
  have hlow := binade_lower x hx
  have ha := roundHalfEven_le_add (x / ulp x)
  have hb := sub_le_roundHalfEven (x / ulp x)
  have hxu : x / ulp x * ulp x = x := div_mul_cancel₀ x (ne_of_gt hu)
  have h1 : roundPos x ≤ x + ulp x / 2 := by
    unfold roundPos
    have := mul_le_mul_of_nonneg_right ha (le_of_lt hu)
    linarith
  have h2 : x - ulp x / 2 ≤ roundPos x := by
    unfold roundPos
    have := mul_le_mul_of_nonneg_right hb (le_of_lt hu)
    linarith
  have h3 : ulp x / 2 ≤ 1 / 2 ^ (53 : ℕ) * x := by
    have : ulp x ≤ x / 2 ^ (52 : ℕ) := by
      rw [le_div_iff₀ (by positivity)]
      linarith
    have h4 : x / 2 ^ (52 : ℕ) / 2 = 1 / 2 ^ (53 : ℕ) * x := by ring
    linarith
  constructor <;> linarith

/-- Rounding does not pass a multiple of the unit in the last place. -/
theorem roundPos_le_of_le (x : ℚ) (N : ℤ) (h : x ≤ N * ulp x) : roundPos x ≤ N * ulp x := by
  have hu := ulp_pos x
  have h1 : x / ulp x ≤ N := by
    rw [div_le_iff₀ hu]; exact h
  have h2 : ((roundHalfEven (x / ulp x) : ℤ) : ℚ) ≤ N := by
    exact_mod_cast roundHalfEven_le_int _ N h1
  unfold roundPos
  exact mul_le_mul_of_nonneg_right h2 (le_of_lt hu)

theorem le_roundPos_of_le (x : ℚ) (N : ℤ) (h : N * ulp x ≤ x) : N * ulp x ≤ roundPos x := by
  have hu := ulp_pos x
  have h1 : (N : ℚ) ≤ x / ulp x := by
    rw [le_div_iff₀ hu]; exact h
  have h2 : (N : ℚ) ≤ ((roundHalfEven (x / ulp x) : ℤ) : ℚ) := by
    exact_mod_cast int_le_roundHalfEven _ N h1
  unfold roundPos
  exact mul_le_mul_of_nonneg_right h2 (le_of_lt hu)

theorem roundPos_pos (x : ℚ) (hx : 0 < x) : 0 < roundPos x := by
  have h := le_roundPos_of_le x (2 ^ (52 : ℕ)) (by exact_mod_cast binade_lower x hx)
  have : (0 : ℚ) < ((2 ^ (52 : ℕ) : ℤ) : ℚ) * ulp x := by
    have := ulp_pos x
    positivity
  linarith

theorem roundPos_mono (x y : ℚ) (hx : 0 < x) (hxy : x ≤ y) : roundPos x ≤ roundPos y := by
  have hy : 0 < y := lt_of_lt_of_le hx hxy
  have hlog : Int.log 2 x ≤ Int.log 2 y := Int.log_mono_right hx hxy
  rcases lt_or_eq_of_le hlog with hlt | heq
  · have h1 : roundPos x ≤ ((2 ^ (53 : ℕ) : ℤ) : ℚ) * ulp x :=
      roundPos_le_of_le x (2 ^ (53 : ℕ)) (by exact_mod_cast le_of_lt (binade_upper x))
    have h2 : ((2 ^ (52 : ℕ) : ℤ) : ℚ) * ulp y ≤ roundPos y :=
      le_roundPos_of_le y (2 ^ (52 : ℕ)) (by exact_mod_cast binade_lower y hy)
    have h3 : ((2 ^ (53 : ℕ) : ℤ) : ℚ) * ulp x ≤ ((2 ^ (52 : ℕ) : ℤ) : ℚ) * ulp y := by
      have e1 : ((2 ^ (53 : ℕ) : ℤ) : ℚ) * ulp x = (2 : ℚ) ^ (Int.log 2 x + 1) := by
        rw [show ((2 ^ (53 : ℕ) : ℤ) : ℚ) = (2 : ℚ) ^ (53 : ℕ) by norm_num, pow53_mul_ulp]
      have e2 : ((2 ^ (52 : ℕ) : ℤ) : ℚ) * ulp y = (2 : ℚ) ^ (Int.log 2 y) := by
        rw [show ((2 ^ (52 : ℕ) : ℤ) : ℚ) = (2 : ℚ) ^ (52 : ℕ) by norm_num, pow52_mul_ulp]
      rw [e1, e2]
      exact zpow_le_zpow_right₀ (by norm_num) (by omega)
    linarith
  · have hu : ulp x = ulp y := by unfold ulp; rw [heq]
    have hpos := ulp_pos y
    unfold roundPos
    rw [hu]
    apply mul_le_mul_of_nonneg_right _ (le_of_lt hpos)
    have : roundHalfEven (x / ulp y) ≤ roundHalfEven (y / ulp y) :=
      roundHalfEven_mono (div_le_div_of_nonneg_right hxy (le_of_lt hpos))
    exact_mod_cast this

/-- Rounding does not pass a natural number below `2 ^ 53`. -/
theorem roundPos_le_nat (x : ℚ) (c : ℕ) (hx : 0 < x) (hxc : x ≤ c) (hc : c < 2 ^ 53) :
    roundPos x ≤ c := by
  have hc0 : c ≠ 0 := by
    rintro rfl
    simp at hxc
    linarith
  have hlog : Int.log 2 x ≤ 52 := by
    have h1 : Int.log 2 x ≤ Int.log 2 (c : ℚ) := Int.log_mono_right hx hxc
    rw [Int.log_natCast] at h1
    have h2 : Nat.log 2 c < 53 := Nat.log_lt_of_lt_pow hc0 hc
    omega
  obtain ⟨t, ht⟩ : ∃ t : ℕ, (t : ℤ) = 52 - Int.log 2 x := ⟨(52 - Int.log 2 x).toNat, by omega⟩
  have hN : (((c * 2 ^ t : ℕ) : ℤ) : ℚ) * ulp x = c := by
    unfold ulp
    push_cast
    rw [mul_assoc, ← zpow_natCast, ← zpow_add₀ (by norm_num : (2 : ℚ) ≠ 0), ht]
    have : (52 - Int.log 2 x + (Int.log 2 x - 52) : ℤ) = 0 := by ring
    rw [this, zpow_zero, mul_one]
  have := roundPos_le_of_le x ((c * 2 ^ t : ℕ) : ℤ) (by rw [hN]; exact hxc)
  rw [hN] at this
  exact this

/-- The value of a rounding, given the binade and the nearest multiple. -/
theorem roundPos_eq (x : ℚ) (e m : ℤ) (hx : 0 < x) (h1 : (2 : ℚ) ^ e ≤ x)
    (h2 : x < (2 : ℚ) ^ (e + 1)) (h3 : (m : ℚ) - 1 / 2 < x / (2 : ℚ) ^ (e - 52))
    (h4 : x / (2 : ℚ) ^ (e - 52) < (m : ℚ) + 1 / 2) :
    roundPos x = m * (2 : ℚ) ^ (e - 52) := by
  unfold roundPos
  rw [ulp_eq_of_binade x e hx h1 h2, roundHalfEven_eq _ m h3 h4]

theorem fl_of_pos (x : ℚ) (hx : 0 < x) : fl x = roundPos x := by
  unfold fl
  rw [if_pos hx]

theorem fl_zero : fl 0 = 0 := by
  unfold fl
  simp

theorem fl_nonneg (x : ℚ) (hx : 0 ≤ x) : 0 ≤ fl x := by
  rcases lt_or_eq_of_le hx with h | h
  · rw [fl_of_pos x h]; exact le_of_lt (roundPos_pos x h)
  · rw [← h, fl_zero]

theorem fl_pos (x : ℚ) (hx : 0 < x) : 0 < fl x := by
  rw [fl_of_pos x hx]; exact roundPos_pos x hx

theorem fl_error (x : ℚ) (hx : 0 ≤ x) :
    (1 - 1 / 2 ^ (53 : ℕ)) * x ≤ fl x ∧ fl x ≤ (1 + 1 / 2 ^ (53 : ℕ)) * x := by
  rcases lt_or_eq_of_le hx with h | h
  · rw [fl_of_pos x h]; exact roundPos_error x h
  · rw [← h, fl_zero]; simp

theorem fl_mono (x y : ℚ) (hx : 0 ≤ x) (hxy : x ≤ y) : fl x ≤ fl y := by
  rcases lt_or_eq_of_le hx with h | h
  · rw [fl_of_pos x h, fl_of_pos y (lt_of_lt_of_le h hxy)]
    exact roundPos_mono x y h hxy
  · rw [← h, fl_zero]; exact fl_nonneg y (le_trans hx hxy)

theorem fl_le_nat (x : ℚ) (c : ℕ) (hx : 0 ≤ x) (hxc : x ≤ c) (hc : c < 2 ^ 53) : fl x ≤ c := by
  rcases lt_or_eq_of_le hx with h | h
  · rw [fl_of_pos x h]; exact roundPos_le_nat x c h hxc hc
  · rw [← h, fl_zero]; exact Nat.cast_nonneg c

/-- The rate computed in `float64` from `k` hits among `n > 0` results lies
between 0 and 100 and within rounding of `100 * k / n`. -/
theorem mentionRate_bounds (k n : Nat) (hn : 0 < n) (hk : k ≤ n) :
    0 ≤ mentionRate k n ∧ mentionRate k n ≤ 100 ∧
      withinRounding (mentionRate k n) (100 * (k : ℚ) / (n : ℚ)) := by
  have hK : (0 : ℚ) ≤ (k : ℚ) := Nat.cast_nonneg k
  have hN : (0 : ℚ) < (n : ℚ) := by exact_mod_cast hn
  have hKN : (k : ℚ) ≤ (n : ℚ) := by exact_mod_cast hk
  have ha0 : 0 ≤ fl (k : ℚ) := fl_nonneg _ hK
  have hb0 : 0 < fl (n : ℚ) := fl_pos _ hN
  have hab : fl (k : ℚ) ≤ fl (n : ℚ) := fl_mono _ _ hK hKN
  have hq0 : 0 ≤ fl (k : ℚ) / fl (n : ℚ) := div_nonneg ha0 (le_of_lt hb0)
  have hq1 : fl (k : ℚ) / fl (n : ℚ) ≤ 1 := (div_le_one hb0).mpr hab
  have hQ0 : 0 ≤ fl (fl (k : ℚ) / fl (n : ℚ)) := fl_nonneg _ hq0
  have hQ1 : fl (fl (k : ℚ) / fl (n : ℚ)) ≤ 1 := by
    have := fl_le_nat _ 1 hq0 (by simpa using hq1) (by norm_num)
    simpa using this
  have hp0 : 0 ≤ fl (fl (k : ℚ) / fl (n : ℚ)) * 100 := by positivity
  have hp1 : fl (fl (k : ℚ) / fl (n : ℚ)) * 100 ≤ 100 := by linarith
  have hr0 : 0 ≤ fl (fl (fl (k : ℚ) / fl (n : ℚ)) * 100) := fl_nonneg _ hp0
  have hr1 : fl (fl (fl (k : ℚ) / fl (n : ℚ)) * 100) ≤ 100 := by
    have := fl_le_nat _ 100 hp0 (by simpa using hp1) (by norm_num)
    simpa using this
  -- the four roundings
  obtain ⟨hKl, hKu⟩ := fl_error (k : ℚ) hK
  obtain ⟨hNl, hNu⟩ := fl_error (n : ℚ) (le_of_lt hN)
  obtain ⟨hql, hqu⟩ := fl_error _ hq0
  obtain ⟨hrl, hru⟩ := fl_error _ hp0
  have hT : (0 : ℚ) ≤ (k : ℚ) / (n : ℚ) := div_nonneg hK (le_of_lt hN)
  have hlowN : (0 : ℚ) < (1 - 1 / 2 ^ (53 : ℕ)) * (n : ℚ) := by
    apply mul_pos _ hN
    norm_num
  have hdiv_u : fl (k : ℚ) / fl (n : ℚ) ≤
      (1 + 1 / 2 ^ (53 : ℕ)) / (1 - 1 / 2 ^ (53 : ℕ)) * ((k : ℚ) / (n : ℚ)) := by
    have h1 : fl (k : ℚ) / fl (n : ℚ) ≤
        ((1 + 1 / 2 ^ (53 : ℕ)) * (k : ℚ)) / ((1 - 1 / 2 ^ (53 : ℕ)) * (n : ℚ)) :=
      div_le_div₀ (by positivity) hKu hlowN hNl
    have h2 : ((1 + 1 / 2 ^ (53 : ℕ)) * (k : ℚ)) / ((1 - 1 / 2 ^ (53 : ℕ)) * (n : ℚ)) =
        (1 + 1 / 2 ^ (53 : ℕ)) / (1 - 1 / 2 ^ (53 : ℕ)) * ((k : ℚ) / (n : ℚ)) := by
      rw [mul_div_mul_comm]
    linarith
  have hdiv_l : (1 - 1 / 2 ^ (53 : ℕ)) / (1 + 1 / 2 ^ (53 : ℕ)) * ((k : ℚ) / (n : ℚ)) ≤
      fl (k : ℚ) / fl (n : ℚ) := by
    have h1 : ((1 - 1 / 2 ^ (53 : ℕ)) * (k : ℚ)) / ((1 + 1 / 2 ^ (53 : ℕ)) * (n : ℚ)) ≤
        fl (k : ℚ) / fl (n : ℚ) :=
      div_le_div₀ ha0 hKl hb0 hNu
    have h2 : ((1 - 1 / 2 ^ (53 : ℕ)) * (k : ℚ)) / ((1 + 1 / 2 ^ (53 : ℕ)) * (n : ℚ)) =
        (1 - 1 / 2 ^ (53 : ℕ)) / (1 + 1 / 2 ^ (53 : ℕ)) * ((k : ℚ) / (n : ℚ)) := by
      rw [mul_div_mul_comm]
    linarith
  have hexact : 100 * (k : ℚ) / (n : ℚ) = 100 * ((k : ℚ) / (n : ℚ)) := by ring
  refine ⟨hr0, hr1, ?_, ?_⟩
  · -- lower
    show (1 - 1 / 2 ^ (50 : ℕ)) * (100 * (k : ℚ) / (n : ℚ)) ≤ _
    rw [hexact]
    have c1 : (0 : ℚ) ≤ 1 - 1 / 2 ^ (53 : ℕ) := by norm_num
    have s1 : (1 - 1 / 2 ^ (53 : ℕ)) *
        ((1 - 1 / 2 ^ (53 : ℕ)) / (1 + 1 / 2 ^ (53 : ℕ)) * ((k : ℚ) / (n : ℚ))) ≤
        fl (fl (k : ℚ) / fl (n : ℚ)) :=
      le_trans (mul_le_mul_of_nonneg_left hdiv_l c1) hql
    have s2 : (1 - 1 / 2 ^ (53 : ℕ)) *
        ((1 - 1 / 2 ^ (53 : ℕ)) *
          ((1 - 1 / 2 ^ (53 : ℕ)) / (1 + 1 / 2 ^ (53 : ℕ)) * ((k : ℚ) / (n : ℚ))) * 100) ≤
        fl (fl (fl (k : ℚ) / fl (n : ℚ)) * 100) :=
      le_trans (mul_le_mul_of_nonneg_left
        (mul_le_mul_of_nonneg_right s1 (by norm_num)) c1) hrl
    have s3 : (1 - 1 / 2 ^ (50 : ℕ)) * (100 * ((k : ℚ) / (n : ℚ))) ≤
        (1 - 1 / 2 ^ (53 : ℕ)) *
        ((1 - 1 / 2 ^ (53 : ℕ)) *
          ((1 - 1 / 2 ^ (53 : ℕ)) / (1 + 1 / 2 ^ (53 : ℕ)) * ((k : ℚ) / (n : ℚ))) * 100) := by
      have e : (1 - 1 / 2 ^ (53 : ℕ)) *
          ((1 - 1 / 2 ^ (53 : ℕ)) *
            ((1 - 1 / 2 ^ (53 : ℕ)) / (1 + 1 / 2 ^ (53 : ℕ)) * ((k : ℚ) / (n : ℚ))) * 100) =
          ((1 - 1 / 2 ^ (53 : ℕ)) * (1 - 1 / 2 ^ (53 : ℕ)) *
            ((1 - 1 / 2 ^ (53 : ℕ)) / (1 + 1 / 2 ^ (53 : ℕ)))) * (100 * ((k : ℚ) / (n : ℚ))) := by
        ring
      rw [e]
      apply mul_le_mul_of_nonneg_right _ (by positivity)
      norm_num
    exact le_trans s3 s2
  · show _ ≤ (1 + 1 / 2 ^ (50 : ℕ)) * (100 * (k : ℚ) / (n : ℚ))
    rw [hexact]
    have c1 : (0 : ℚ) ≤ 1 + 1 / 2 ^ (53 : ℕ) := by norm_num
    have s1 : fl (fl (k : ℚ) / fl (n : ℚ)) ≤ (1 + 1 / 2 ^ (53 : ℕ)) *
        ((1 + 1 / 2 ^ (53 : ℕ)) / (1 - 1 / 2 ^ (53 : ℕ)) * ((k : ℚ) / (n : ℚ))) :=
      le_trans hqu (mul_le_mul_of_nonneg_left hdiv_u c1)
    have s2 : fl (fl (fl (k : ℚ) / fl (n : ℚ)) * 100) ≤ (1 + 1 / 2 ^ (53 : ℕ)) *
        ((1 + 1 / 2 ^ (53 : ℕ)) *
          ((1 + 1 / 2 ^ (53 : ℕ)) / (1 - 1 / 2 ^ (53 : ℕ)) * ((k : ℚ) / (n : ℚ))) * 100) :=
      le_trans hru (mul_le_mul_of_nonneg_left
        (mul_le_mul_of_nonneg_right s1 (by norm_num)) c1)
    have s3 : (1 + 1 / 2 ^ (53 : ℕ)) *
        ((1 + 1 / 2 ^ (53 : ℕ)) *
          ((1 + 1 / 2 ^ (53 : ℕ)) / (1 - 1 / 2 ^ (53 : ℕ)) * ((k : ℚ) / (n : ℚ))) * 100) ≤
        (1 + 1 / 2 ^ (50 : ℕ)) * (100 * ((k : ℚ) / (n : ℚ))) := by
      have e : (1 + 1 / 2 ^ (53 : ℕ)) *
          ((1 + 1 / 2 ^ (53 : ℕ)) *
            ((1 + 1 / 2 ^ (53 : ℕ)) / (1 - 1 / 2 ^ (53 : ℕ)) * ((k : ℚ) / (n : ℚ))) * 100) =
          ((1 + 1 / 2 ^ (53 : ℕ)) * (1 + 1 / 2 ^ (53 : ℕ)) *
            ((1 + 1 / 2 ^ (53 : ℕ)) / (1 - 1 / 2 ^ (53 : ℕ)))) * (100 * ((k : ℚ) / (n : ℚ))) := by
        ring
      rw [e]
      apply mul_le_mul_of_nonneg_right _ (by positivity)
      norm_num
    exact le_trans s2 s3

/-- A natural number below `2 ^ 53` is a `float64`: its conversion is exact. -/
theorem fl_natCast (c : ℕ) (hc : c < 2 ^ 53) : fl (c : ℚ) = c := by
  rcases Nat.eq_zero_or_pos c with h0 | hpos
  · subst h0; simpa using fl_zero
  have hx : (0 : ℚ) < (c : ℚ) := by exact_mod_cast hpos
  rw [fl_of_pos _ hx]
  have hlog : Int.log 2 (c : ℚ) ≤ 52 := by
    rw [Int.log_natCast]
    have h2 : Nat.log 2 c < 53 := Nat.log_lt_of_lt_pow (by omega) hc
    omega
  obtain ⟨t, ht⟩ : ∃ t : ℕ, (t : ℤ) = 52 - Int.log 2 (c : ℚ) :=
    ⟨(52 - Int.log 2 (c : ℚ)).toNat, by omega⟩
  have hN : (((c * 2 ^ t : ℕ) : ℤ) : ℚ) * ulp (c : ℚ) = c := by
    unfold ulp
    push_cast
    rw [mul_assoc, ← zpow_natCast, ← zpow_add₀ (by norm_num : (2 : ℚ) ≠ 0), ht]
    have : (52 - Int.log 2 (c : ℚ) + (Int.log 2 (c : ℚ) - 52) : ℤ) = 0 := by ring
    rw [this, zpow_zero, mul_one]
  have h1 := roundPos_le_of_le (c : ℚ) ((c * 2 ^ t : ℕ) : ℤ) (by rw [hN])
  have h2 := le_roundPos_of_le (c : ℚ) ((c * 2 ^ t : ℕ) : ℤ) (by rw [hN])
  rw [hN] at h1 h2
  exact le_antisymm h1 h2

theorem fl_eq (x : ℚ) (e m : ℤ) (hx : 0 < x) (h1 : (2 : ℚ) ^ e ≤ x)
    (h2 : x < (2 : ℚ) ^ (e + 1)) (h3 : (m : ℚ) - 1 / 2 < x / (2 : ℚ) ^ (e - 52))
    (h4 : x / (2 : ℚ) ^ (e - 52) < (m : ℚ) + 1 / 2) :
    fl x = m * (2 : ℚ) ^ (e - 52) := by
  rw [fl_of_pos x hx]
  exact roundPos_eq x e m hx h1 h2 h3 h4

/-- One hit among three results: `float64(1) / float64(3) * 100`. -/
theorem mentionRate_one_three : mentionRate 1 3 = 2345624805922133 / 70368744177664 := by
  have h1 : fl ((1 : ℕ) : ℚ) = 1 := by simpa using fl_natCast 1 (by norm_num)
  have h3 : fl ((3 : ℕ) : ℚ) = 3 := by simpa using fl_natCast 3 (by norm_num)
  have hq : fl ((1 : ℚ) / 3) = 6004799503160661 / 18014398509481984 := by
    rw [fl_eq (1 / 3) (-2) 6004799503160661 (by norm_num) (by norm_num) (by norm_num)
      (by norm_num) (by norm_num)]
    norm_num
  have hr : fl ((6004799503160661 : ℚ) / 18014398509481984 * 100) =
      2345624805922133 / 70368744177664 := by
    rw [fl_eq _ 5 4691249611844266 (by norm_num) (by norm_num) (by norm_num)
      (by norm_num) (by norm_num)]
    norm_num
  unfold mentionRate fmul fdiv float64
  rw [h1, h3, hq, hr]

/-- Twenty-three hits among eighty results: the exact rate `28.75` is a
`float64`, and the computed rate is the `float64` below it. -/
theorem mentionRate_23_80 : mentionRate 23 80 = 8092405580431359 / 281474976710656 := by
  have h1 : fl ((23 : ℕ) : ℚ) = 23 := by simpa using fl_natCast 23 (by norm_num)
  have h3 : fl ((80 : ℕ) : ℚ) = 80 := by simpa using fl_natCast 80 (by norm_num)
  have hq : fl ((23 : ℚ) / 80) = 2589569785738035 / 9007199254740992 := by
    rw [fl_eq (23 / 80) (-2) 5179139571476070 (by norm_num) (by norm_num) (by norm_num)
      (by norm_num) (by norm_num)]
    norm_num
  have hr : fl ((2589569785738035 : ℚ) / 9007199254740992 * 100) =
      8092405580431359 / 281474976710656 := by
    rw [fl_eq _ 4 8092405580431359 (by norm_num) (by norm_num) (by norm_num)
      (by norm_num) (by norm_num)]
    norm_num
  unfold mentionRate fmul fdiv float64
  rw [h1, h3, hq, hr]

theorem printSummary_operands (results : List QueryResult) (hne : results ≠ []) :
    printSummary results =
      some
        { companyMentionRate :=
            mentionRate (results.filter (fun r => r.CompanyMentioned)).length results.length
          productMentionRate :=
            mentionRate
              (results.filter (fun r => decide (r.ProductsMentioned ≠ noneSentinel))).length
              results.length
          urlMentionRate :=
            mentionRate (results.filter (fun r => r.URLMentioned)).length results.length
          totalQueries := results.length } := by
  have hlen : 0 < results.length := List.length_pos.mpr hne
  have hlen0 : ¬ results.length = 0 := by omega
  unfold printSummary
  rw [if_neg hlen0, countLoop_eq]

/-- C8 (as stated, refuted): for three results of which one mentions the
company, the rate computed in `float64` is `2345624805922133 / 2 ^ 46`
(printed 33.33333333333333), not the rational `100 * 1 / 3`. -/
theorem C8_counterexample :
    ∃ rates : Rates,
      printSummary sampleResults = some rates ∧
        sampleResults.length = 3 ∧
        (sampleResults.filter (fun r => r.CompanyMentioned)).length = 1 ∧
        rates.companyMentionRate = 2345624805922133 / 70368744177664 ∧
        rates.companyMentionRate ≠ 100 * (1 : ℚ) / 3 := by
  have hne : sampleResults ≠ [] := by decide
  have hk : (sampleResults.filter (fun r => r.CompanyMentioned)).length = 1 := by decide
  have hn : sampleResults.length = 3 := by decide
  refine ⟨_, printSummary_operands sampleResults hne, hn, hk, ?_, ?_⟩
  · show mentionRate _ _ = _
    rw [hk, hn]
    exact mentionRate_one_three
  · show mentionRate _ _ ≠ _
    rw [hk, hn, mentionRate_one_three]
    norm_num

/-- C8 (amended): for a non-empty list of `n` results of which `k` mention the
company, `p` carry a `ProductsMentioned` other than the sentinel and `u`
mention the URL, `printSummary` computes the three rates in `float64` as
`float64(k) / float64(n) * 100` and likewise for `p` and `u`, over
`n = len(results)`; each computed rate lies between 0 and 100 and within the
relative distance `2 ^ (-50)` of the rational `100*k/n`, `100*p/n`, `100*u/n`;
for the empty list it returns before computing anything. -/
theorem C8_summary_rates (results : List QueryResult) (hne : results ≠ []) :
    (∃ rates : Rates,
        printSummary results = some rates ∧
          rates.totalQueries = results.length ∧
          rates.companyMentionRate =
            mentionRate (results.filter (fun r => r.CompanyMentioned)).length results.length ∧
          rates.productMentionRate =
            mentionRate
              (results.filter (fun r => decide (r.ProductsMentioned ≠ noneSentinel))).length
              results.length ∧
          rates.urlMentionRate =
            mentionRate (results.filter (fun r => r.URLMentioned)).length results.length ∧
          (0 ≤ rates.companyMentionRate ∧ rates.companyMentionRate ≤ 100 ∧
            withinRounding rates.companyMentionRate
              (100 * ((results.filter (fun r => r.CompanyMentioned)).length : ℚ) /
                (results.length : ℚ))) ∧
          (0 ≤ rates.productMentionRate ∧ rates.productMentionRate ≤ 100 ∧
            withinRounding rates.productMentionRate
              (100 *
                  ((results.filter
                    (fun r => decide (r.ProductsMentioned ≠ noneSentinel))).length : ℚ) /
                (results.length : ℚ))) ∧
          (0 ≤ rates.urlMentionRate ∧ rates.urlMentionRate ≤ 100 ∧
            withinRounding rates.urlMentionRate
              (100 * ((results.filter (fun r => r.URLMentioned)).length : ℚ) /
                (results.length : ℚ)))) ∧
      (printSummary []).isNone = true := by
  have hlen : 0 < results.length := List.length_pos.mpr hne
  refine ⟨?_, rfl⟩
  have hc := mentionRate_bounds (results.filter (fun r => r.CompanyMentioned)).length
    results.length hlen (List.length_filter_le _ _)
  have hp := mentionRate_bounds
    (results.filter (fun r => decide (r.ProductsMentioned ≠ noneSentinel))).length results.length
    hlen (List.length_filter_le _ _)
  have hu := mentionRate_bounds (results.filter (fun r => r.URLMentioned)).length results.length
    hlen (List.length_filter_le _ _)
  exact ⟨_, printSummary_operands results hne, rfl, rfl, rfl, rfl, hc, hp, hu⟩

/-- C8 witness: three results, one mentioning the company. -/
theorem C8_summary_rates_witness :
    sampleResults ≠ [] ∧
      ∃ rates : Rates,
        printSummary sampleResults = some rates ∧
          rates.totalQueries = 3 ∧
          0 ≤ rates.companyMentionRate ∧ rates.companyMentionRate ≤ 100 ∧
          withinRounding rates.companyMentionRate (100 * (1 : ℚ) / 3) := by
  have hne : sampleResults ≠ [] := by decide
  have hk : (sampleResults.filter (fun r => r.CompanyMentioned)).length = 1 := by decide
  have hn : sampleResults.length = 3 := by decide
  obtain ⟨⟨rates, h0, ht, _, _, _, ⟨h1, h2, h3⟩, _, _⟩, _⟩ := C8_summary_rates sampleResults hne
  rw [hk, hn] at h3
  rw [hn] at ht
  exact ⟨hne, rates, h0, ht, h1, h2, by simpa using h3⟩

/-! ## C9 -/

theorem splitAux_ne_nil (sep : Char) (s cur : GoString) : splitAux sep s cur ≠ [] := by
  induction s generalizing cur with
  | nil => simp [splitAux]
  | cons c cs ih =>
    unfold splitAux
    by_cases h : c = sep
    · simp [h]
    · simp only [h, if_false]
      exact ih _

theorem Split_length_ne_zero (s : GoString) (sep : Char) : (Split s sep).length ≠ 0 := by
  intro h
  exact splitAux_ne_nil sep s [] (List.length_eq_zero.mp h)

theorem startup_ignores_lists (env : GoString → Option GoString) :
    startup env none = Startup.fatalMissingSecond ↔
      (¬ (Getenv env "GEMINI_API_KEY".toList = [] ∨ Getenv env "GEMINI_API_MODEL".toList = [] ∨
            Getenv env "DOMAIN_NAME".toList = []) ∧
        Getenv env "COMPANY_NAME".toList = []) := by
  unfold startup
  dsimp only
  have hp := Split_length_ne_zero (Getenv env "PRODUCT_NAMES".toList) ','
  have hq := Split_length_ne_zero (Getenv env "TARGET_QUERIES".toList) '|'
  by_cases h1 : Getenv env "GEMINI_API_KEY".toList = [] ∨
      Getenv env "GEMINI_API_MODEL".toList = [] ∨ Getenv env "DOMAIN_NAME".toList = []
  · rw [if_pos h1]
    constructor
    · intro h; cases h
    · intro h; exact absurd h1 h.1
  · rw [if_neg h1]
    by_cases h2 : Getenv env "COMPANY_NAME".toList = []
    · rw [if_pos (Or.inl h2)]
      exact ⟨fun _ => ⟨h1, h2⟩, fun _ => rfl⟩
    · rw [if_neg (by
        rintro (h | h | h)
        · exact h2 h
        · exact hp h
        · exact hq h)]
      constructor
      · intro h; cases h
      · intro h; exact absurd h.2 h2

/-- C9 (code behaviour at the failing input): with `PRODUCT_NAMES` and
`TARGET_QUERIES` unset, `strings.Split` yields one empty entry for each, the
length tests of line 53 do not fire, and startup passes with the product list
`[""]` and the query list `[""]`. -/
theorem C9_unset_lists_pass :
    startup envWithoutLists none =
      Startup.ready "gemini-pro".toList
        { companyName := "Acme".toList, domainName := "acme.example".toList
          productNames := [[]] }
        [[]] := by
  decide

/-! ## C10 -/

theorem foldl_loopBody_sleepCount (tbl : Char → Char) (cfg : Config) (its : List Iteration)
    (st : LoopState) :
    sleepCount (its.foldl (loopBody tbl cfg) st).trace =
      sleepCount st.trace + (its.filterMap (recordOf tbl cfg)).length := by
  induction its generalizing st with
  | nil => simp
  | cons it rest ih =>
    rw [List.foldl_cons, ih, List.filterMap_cons]
    unfold loopBody recordOf
    rcases callGeminiAPI it.apiResult with ⟨answerText, err⟩
    cases err with
    | none =>
      simp [sleepCount, List.filter_append]
      omega
    | some e => simp [sleepCount, List.filter_append]

theorem sleepCount_eq_successes (tbl : Char → Char) (cfg : Config) (its : List Iteration) :
    sleepCount (mainLoop tbl cfg its).trace = (mainLoop tbl cfg its).results.length := by
  unfold mainLoop
  rw [foldl_loopBody_sleepCount, foldl_loopBody_results]
  simp [sleepCount]

/-- C10 (code behaviour at the failing input): two queries, the first call
fails.  The loop logs and continues without sleeping, so the second call
follows the first with no sleep between them, and there is one sleep for two
queries. -/
theorem C10_no_sleep_after_failure :
    (mainLoop identityTable sampleConfig failThenAnswer).trace =
        [Event.apiCall "q1".toList,
          Event.logError "q1".toList (APIError.callFailed "quota exceeded".toList),
          Event.apiCall "q2".toList, Event.sleep 1] ∧
      sleepCount (mainLoop identityTable sampleConfig failThenAnswer).trace = 1 ∧
      failThenAnswer.length = 2 ∧
      callsWithoutSleep false (mainLoop identityTable sampleConfig failThenAnswer).trace = true := by
  refine ⟨?_, ?_, ?_, ?_⟩ <;> decide

/-! ## C7: the reader on the writer's output -/

theorem span_append_stop (p : Char → Bool) (a l : GoString) (c : Char)
    (ha : ∀ x ∈ a, p x = true) (hc : p c = false) :
    (a ++ c :: l).span p = (a, c :: l) := by
  induction a with
  | nil => simp [List.span, List.span.loop, hc]
  | cons x xs ih =>
    have hx : p x = true := ha x (List.mem_cons_self x xs)
    have ih1 := ih (fun y hy => ha y (List.mem_cons_of_mem x hy))
    rw [List.span_eq_take_drop] at ih1 ⊢
    simp only [List.cons_append, List.takeWhile_cons, List.dropWhile_cons, hx, if_true]
    rw [Prod.mk.injEq] at ih1 ⊢
    exact ⟨by rw [ih1.1], ih1.2⟩

theorem span_all (p : Char → Bool) (a : GoString) (ha : ∀ x ∈ a, p x = true) :
    a.span p = (a, []) := by
  rw [List.span_eq_take_drop]
  induction a with
  | nil => rfl
  | cons x xs ih =>
    have hx : p x = true := ha x (List.mem_cons_self x xs)
    have ih1 := ih (fun y hy => ha y (List.mem_cons_of_mem x hy))
    simp only [List.takeWhile_cons, List.dropWhile_cons, hx, if_true]
    rw [Prod.mk.injEq] at ih1 ⊢
    exact ⟨by rw [ih1.1], ih1.2⟩

theorem lengthNL_concat (a : GoString) : lengthNL (a ++ ['\n']) = 1 := by
  unfold lengthNL
  rw [List.getLast?_concat]
  rfl

/-- At the start of a field: an unquoted field followed by a comma. -/
theorem parseField_unquoted_comma (n : Nat) (f l rest : GoString) (acc : List GoString)
    (hq : '"' ∉ f) (hc : ',' ∉ f) :
    parseField (n + 1) none (f ++ ',' :: l) rest acc = parseField n none l rest (acc ++ [f]) := by
  have hspan : (f ++ ',' :: l).span (fun c => c != ',') = (f, ',' :: l) :=
    span_append_stop _ f l ',' (fun x hx => by
      have : x ≠ ',' := fun h => hc (h ▸ hx)
      simpa using this) (by simp)
  have hhead : (f ++ ',' :: l).head? ≠ some '"' := by
    cases f with
    | nil => simp
    | cons x xs =>
      intro h
      simp only [List.cons_append, List.head?_cons, Option.some.injEq] at h
      exact hq (h ▸ List.mem_cons_self x xs)
  have hcontains : f.contains '"' = false := by
    simpa using hq
  rw [parseField, if_pos hhead, hspan]
  simp only [hcontains]
  rfl

/-- At the start of a field: the last field of the record, unquoted. -/
theorem parseField_unquoted_last (n : Nat) (f rest : GoString) (acc : List GoString)
    (hq : '"' ∉ f) (hc : ',' ∉ f) :
    parseField (n + 1) none (f ++ ['\n']) rest acc = .ok (acc ++ [f], rest) := by
  have hspan : (f ++ ['\n']).span (fun c => c != ',') = (f ++ ['\n'], []) :=
    span_all _ _ (fun x hx => by
      have : x ≠ ',' := by
        intro h
        rcases List.mem_append.mp hx with h1 | h1
        · exact hc (h ▸ h1)
        · rw [h] at h1; simp at h1
      simpa using this)
  have hhead : (f ++ ['\n']).head? ≠ some '"' := by
    cases f with
    | nil => simp
    | cons x xs =>
      intro h
      simp only [List.cons_append, List.head?_cons, Option.some.injEq] at h
      exact hq (h ▸ List.mem_cons_self x xs)
  have htake : (f ++ ['\n']).take ((f ++ ['\n']).length - lengthNL (f ++ ['\n'])) = f := by
    rw [lengthNL_concat]
    simp
  have hcontains : f.contains '"' = false := by
    simpa using hq
  rw [parseField, if_pos hhead, hspan]
  simp only [htake, hcontains]
  rfl

/-- At the start of a field: an opening quote. -/
theorem parseField_open_quote (n : Nat) (l rest : GoString) (acc : List GoString) :
    parseField (n + 1) none ('"' :: l) rest acc = parseField n (some []) l rest acc := by
  rw [parseField]
  simp

/-- Inside a quoted field: a rune that is not a quote, with more of the line
to come, is copied to the field. -/
theorem parseField_quoted_char (n : Nat) (buf l rest : GoString) (acc : List GoString) (c : Char)
    (hc : c ≠ '"') (hl : l ≠ []) :
    parseField (n + 1) (some buf) (c :: l) rest acc =
      parseField (n + 1) (some (buf ++ [c])) l rest acc := by
  have hp : (fun x : Char => x != '"') c = true := by simpa using hc
  have hspan : (c :: l).span (fun x => x != '"') =
      (c :: (l.span (fun x => x != '"')).1, (l.span (fun x => x != '"')).2) := by
    rw [List.span_eq_take_drop, List.span_eq_take_drop]
    simp only [List.takeWhile_cons, List.dropWhile_cons, hp, if_true]
  have hlen : l.length > 0 := List.length_pos.mpr hl
  rw [parseField, parseField, hspan]
  cases hrest : (l.span (fun x => x != '"')).2 with
  | nil =>
    simp only [hlen, List.length_cons, if_true, gt_iff_lt, Nat.zero_lt_succ, List.append_assoc,
      List.singleton_append]
  | cons x line1 =>
    simp only [List.append_assoc, List.singleton_append]

/-- Inside a quoted field: at the newline ending the line the line is copied
and the next line is read. -/
theorem parseField_quoted_newline (n : Nat) (buf rest : GoString) (acc : List GoString) :
    parseField (n + 1) (some buf) ['\n'] rest acc =
      parseField n (some (buf ++ ['\n'])) (readLine rest).1 (readLine rest).2.2 acc := by
  rw [parseField]
  rfl

/-- Inside a quoted field: two quotes stand for one. -/
theorem parseField_quoted_escape (n : Nat) (buf l rest : GoString) (acc : List GoString) :
    parseField (n + 1) (some buf) ('"' :: '"' :: l) rest acc =
      parseField n (some (buf ++ ['"'])) l rest acc := by
  rw [parseField]
  simp [List.span, List.span.loop]

/-- Inside a quoted field: a quote followed by a comma ends the field. -/
theorem parseField_quoted_close_comma (n : Nat) (buf l rest : GoString) (acc : List GoString) :
    parseField (n + 1) (some buf) ('"' :: ',' :: l) rest acc =
      parseField n none l rest (acc ++ [buf]) := by
  rw [parseField]
  simp [List.span, List.span.loop]

/-- Inside a quoted field: a quote followed by the end of the line ends the record. -/
theorem parseField_quoted_close_line (n : Nat) (buf rest : GoString) (acc : List GoString) :
    parseField (n + 1) (some buf) ['"', '\n'] rest acc = .ok (acc ++ [buf], rest) := by
  rw [parseField]
  simp [List.span, List.span.loop, lengthNL]

/-! ### Lines -/

theorem readSlice_line (pre r : GoString) (hpre : '\n' ∉ pre) :
    readSlice (pre ++ '\n' :: r) = (pre ++ ['\n'], r) := by
  induction pre with
  | nil => simp [readSlice]
  | cons x xs ih =>
    have hx : x ≠ '\n' := fun h => hpre (h ▸ List.mem_cons_self x xs)
    have ih1 := ih (fun h => hpre (List.mem_cons_of_mem x h))
    rw [List.cons_append, readSlice, if_neg hx, ih1]
    rfl

theorem readLine_line (pre r : GoString) (hpre : '\n' ∉ pre) (hcr : pre.getLast? ≠ some '\r') :
    readLine (pre ++ '\n' :: r) = (pre ++ ['\n'], false, r) := by
  unfold readLine
  rw [readSlice_line pre r hpre]
  have hlast : (pre ++ ['\n']).getLast? = some '\n' := List.getLast?_concat pre
  simp only [hlast, List.dropLast_concat, hcr, decide_True, not_true_eq_false, and_false,
    false_and, if_false, List.length_append, List.length_singleton, Nat.add_one_ne_zero,
    decide_False]

theorem hasCRLF_append (x y : GoString) :
    hasCRLF (x ++ y) =
      (hasCRLF x || hasCRLF y || (x.getLast? == some '\r' && y.head? == some '\n')) := by
  induction x with
  | nil => simp [hasCRLF]
  | cons c cs ih =>
    cases cs with
    | nil =>
      have e1 : hasCRLF ([c] ++ y) = ((c == '\r' && y.head? == some '\n') || hasCRLF y) := rfl
      have e2 : hasCRLF [c] = false := by simp [hasCRLF]
      have e3 : ([c].getLast? == some '\r') = (c == '\r') := by simp
      rw [e1, e2, e3]
      generalize hasCRLF y = a
      generalize (c == '\r') = b
      generalize (y.head? == some '\n') = d
      cases a <;> cases b <;> cases d <;> rfl
    | cons d ds =>
      have e1 : hasCRLF (c :: d :: ds ++ y) =
          ((c == '\r' && some d == some '\n') || hasCRLF (d :: ds ++ y)) := rfl
      have e2 : hasCRLF (c :: d :: ds) =
          ((c == '\r' && some d == some '\n') || hasCRLF (d :: ds)) := rfl
      have e3 : (c :: d :: ds).getLast? = (d :: ds).getLast? := List.getLast?_cons_cons
      rw [e1, e2, e3, ih]
      generalize (c == '\r' && some d == some '\n') = a
      generalize hasCRLF (d :: ds) = b
      generalize hasCRLF y = e
      generalize ((d :: ds).getLast? == some '\r' && y.head? == some '\n') = g
      cases a <;> cases b <;> cases e <;> cases g <;> rfl

theorem hasCRLF_append_false (x y : GoString) (h : hasCRLF (x ++ y) = false) :
    hasCRLF x = false ∧ hasCRLF y = false ∧
      ¬ (x.getLast? = some '\r' ∧ y.head? = some '\n') := by
  rw [hasCRLF_append] at h
  simp only [Bool.or_eq_false_iff, Bool.and_eq_false_iff, beq_eq_false_iff_ne, ne_eq] at h
  refine ⟨h.1.1, h.1.2, ?_⟩
  rintro ⟨h1, h2⟩
  rcases h.2 with h3 | h3
  · exact h3 h1
  · exact h3 h2

theorem IsLine.ne_nil {line : GoString} (h : IsLine line) : line ≠ [] := by
  obtain ⟨pre, rfl, _⟩ := h
  simp

theorem IsLine.tail {c : Char} {l : GoString} (h : IsLine (c :: l)) (hc : c ≠ '\n') :
    IsLine l := by
  obtain ⟨pre, heq, hpre⟩ := h
  cases pre with
  | nil =>
    simp only [List.nil_append, List.cons.injEq] at heq
    exact absurd heq.1 hc
  | cons x xs =>
    simp only [List.cons_append, List.cons.injEq] at heq
    exact ⟨xs, heq.2, fun hx => hpre (List.mem_cons_of_mem x hx)⟩

theorem IsLine.of_head_newline {l : GoString} (h : IsLine ('\n' :: l)) : l = [] := by
  obtain ⟨pre, heq, hpre⟩ := h
  cases pre with
  | nil =>
    simp only [List.nil_append, List.cons.injEq] at heq
    exact heq.2
  | cons x xs =>
    simp only [List.cons_append, List.cons.injEq] at heq
    exact absurd (heq.1 ▸ List.mem_cons_self x xs) hpre

/-- A line of the text `a ++ b`, where `a` holds no newline, starts with `a`. -/
theorem IsLine.peel (a : GoString) :
    ∀ (line rest b : GoString), IsLine line → line ++ rest = a ++ b → '\n' ∉ a →
      ∃ l, line = a ++ l ∧ l ++ rest = b ∧ IsLine l := by
  induction a with
  | nil =>
    intro line rest b hline heq _
    exact ⟨line, rfl, heq, hline⟩
  | cons x xs ih =>
    intro line rest b hline heq ha
    cases line with
    | nil => exact absurd rfl hline.ne_nil
    | cons y l0 =>
      simp only [List.cons_append, List.cons.injEq] at heq
      obtain ⟨hy, heq1⟩ := heq
      subst hy
      have hy : y ≠ '\n' := fun h => ha (h ▸ List.mem_cons_self y xs)
      obtain ⟨l, h1, h2, h3⟩ :=
        ih l0 rest b (hline.tail hy) heq1 (fun h => ha (List.mem_cons_of_mem y h))
      exact ⟨l, by rw [h1]; rfl, h2, h3⟩

theorem IsLine.peel_newline (line rest b : GoString) (hline : IsLine line)
    (heq : line ++ rest = '\n' :: b) : line = ['\n'] ∧ rest = b := by
  cases line with
  | nil => exact absurd rfl hline.ne_nil
  | cons y l0 =>
    simp only [List.cons_append, List.cons.injEq] at heq
    obtain ⟨hy, heq1⟩ := heq
    subst hy
    have := hline.of_head_newline
    subst this
    exact ⟨rfl, heq1⟩

theorem readLine_of_mem (text : GoString) (hmem : '\n' ∈ text) (hcrlf : hasCRLF text = false) :
    ∃ pre r, text = pre ++ '\n' :: r ∧ '\n' ∉ pre ∧ readLine text = (pre ++ ['\n'], false, r) := by
  obtain ⟨pre, r, heq, hpre⟩ := List.eq_append_cons_of_mem hmem
  refine ⟨pre, r, heq, hpre, ?_⟩
  rw [heq]
  apply readLine_line pre r hpre
  intro hlast
  rw [heq] at hcrlf
  exact (hasCRLF_append_false _ _ hcrlf).2.2 ⟨hlast, rfl⟩

theorem mem_escapeQuoted_append (f after : GoString) (h : '\n' ∈ after) :
    '\n' ∈ escapeQuoted f ++ '"' :: after :=
  List.mem_append_right _ (List.mem_cons_of_mem _ h)

/-- The body of a quoted field: from inside the quotes the reader collects the
field's runes and arrives at the closing quote. -/
theorem parseField_quoted_body (f : GoString) :
    ∀ (fuel : Nat) (buf line rest : GoString) (acc : List GoString) (after : GoString),
      IsLine line → line ++ rest = escapeQuoted f ++ '"' :: after →
      hasCRLF (line ++ rest) = false → '\n' ∈ after → line.length + rest.length < fuel →
      ∃ fuel1 line1 rest1, IsLine line1 ∧ line1 ++ rest1 = '"' :: after ∧
        hasCRLF (line1 ++ rest1) = false ∧ line1.length + rest1.length < fuel1 ∧
        parseField fuel (some buf) line rest acc =
          parseField fuel1 (some (buf ++ f)) line1 rest1 acc := by
  induction f with
  | nil =>
    intro fuel buf line rest acc after hline heq hcrlf _ hfuel
    exact ⟨fuel, line, rest, hline, heq, hcrlf, hfuel, by rw [List.append_nil]⟩
  | cons c cs ih =>
    intro fuel buf line rest acc after hline heq hcrlf hafter hfuel
    obtain ⟨n, rfl⟩ : ∃ n, fuel = n + 1 := ⟨fuel - 1, by omega⟩
    by_cases hq : c = '"'
    · subst hq
      have heq1 : line ++ rest = ['"', '"'] ++ (escapeQuoted cs ++ '"' :: after) := by
        rw [heq]; simp [escapeQuoted]
      obtain ⟨l, hl, hlrest, hlline⟩ := hline.peel ['"', '"'] line rest _ heq1 (by decide)
      subst hl
      have hcrlf1 : hasCRLF (l ++ rest) = false := by
        have := hasCRLF_append_false ['"', '"'] (l ++ rest) (by simpa using hcrlf)
        exact this.2.1
      have hlen : l.length + rest.length < n := by
        simp only [List.length_append, List.length_cons, List.length_nil] at hfuel
        omega
      obtain ⟨fuel1, line1, rest1, h1, h2, h3, h4, h5⟩ :=
        ih n (buf ++ ['"']) l rest acc after hlline hlrest hcrlf1 hafter hlen
      refine ⟨fuel1, line1, rest1, h1, h2, h3, h4, ?_⟩
      have hstep := parseField_quoted_escape n buf l rest acc
      simp only [List.cons_append, List.nil_append] at hstep ⊢
      rw [hstep, h5]
      simp
    · by_cases hnl : c = '\n'
      · subst hnl
        have heq1 : line ++ rest = '\n' :: (escapeQuoted cs ++ '"' :: after) := by
          rw [heq]; simp [escapeQuoted]
        obtain ⟨hl, hrest⟩ := hline.peel_newline line rest _ heq1
        subst hl
        have hcrlf1 : hasCRLF rest = false :=
          (hasCRLF_append_false ['\n'] rest hcrlf).2.1
        have hmem : '\n' ∈ rest := by
          rw [hrest]; exact mem_escapeQuoted_append cs after hafter
        obtain ⟨pre, r, hpr, hpre, hread⟩ := readLine_of_mem rest hmem hcrlf1
        have hline1 : IsLine (pre ++ ['\n']) := ⟨pre, rfl, hpre⟩
        have heq2 : (pre ++ ['\n']) ++ r = escapeQuoted cs ++ '"' :: after := by
          rw [← hrest, hpr]; simp
        have hcrlf2 : hasCRLF ((pre ++ ['\n']) ++ r) = false := by
          rw [heq2, ← hrest]; exact hcrlf1
        have hlen : (pre ++ ['\n']).length + r.length < n := by
          have : rest.length = pre.length + (r.length + 1) := by rw [hpr]; simp
          simp only [List.length_append, List.length_cons, List.length_nil] at hfuel ⊢
          omega
        obtain ⟨fuel1, line1, rest1, h1, h2, h3, h4, h5⟩ :=
          ih n (buf ++ ['\n']) (pre ++ ['\n']) r acc after hline1 heq2 hcrlf2 hafter hlen
        refine ⟨fuel1, line1, rest1, h1, h2, h3, h4, ?_⟩
        rw [parseField_quoted_newline, hread]
        simp only
        rw [h5]
        simp
      · have heq1 : line ++ rest = [c] ++ (escapeQuoted cs ++ '"' :: after) := by
          rw [heq]; simp [escapeQuoted, hq]
        obtain ⟨l, hl, hlrest, hlline⟩ :=
          hline.peel [c] line rest _ heq1 (by simpa using Ne.symm hnl)
        subst hl
        have hcrlf1 : hasCRLF (l ++ rest) = false := by
          have := hasCRLF_append_false [c] (l ++ rest) (by simpa using hcrlf)
          exact this.2.1
        have hlen : l.length + rest.length < n + 1 := by
          simp only [List.length_append, List.length_cons, List.length_nil] at hfuel
          omega
        obtain ⟨fuel1, line1, rest1, h1, h2, h3, h4, h5⟩ :=
          ih (n + 1) (buf ++ [c]) l rest acc after hlline hlrest hcrlf1 hafter hlen
        refine ⟨fuel1, line1, rest1, h1, h2, h3, h4, ?_⟩
        have hstep := parseField_quoted_char n buf l rest acc c hq hlline.ne_nil
        simp only [List.cons_append, List.nil_append] at hstep ⊢
        rw [hstep, h5]
        simp

/-! ### Fields -/

theorem fieldNeedsQuotes_false (f : GoString) (h : fieldNeedsQuotes f = false) :
    '"' ∉ f ∧ ',' ∉ f ∧ '\n' ∉ f ∧ '\r' ∉ f := by
  cases f with
  | nil => simp
  | cons r1 rs =>
    unfold fieldNeedsQuotes at h
    dsimp only at h
    by_cases h1 : (r1 :: rs) = ['\\', '.']
    · rw [if_pos h1] at h; cases h
    · rw [if_neg h1] at h
      by_cases h2 : (r1 :: rs).any (fun c => c = '\n' || c = '\r' || c = '"' || c = ',') = true
      · rw [if_pos h2] at h; cases h
      · have hall : ∀ x ∈ r1 :: rs, ¬ (x = '\n' ∨ x = '\r' ∨ x = '"' ∨ x = ',') := by
          intro x hx hbad
          apply h2
          rw [List.any_eq_true]
          refine ⟨x, hx, ?_⟩
          rcases hbad with h | h | h | h <;> simp [h]
        refine ⟨?_, ?_, ?_, ?_⟩
        · intro hm; exact hall _ hm (Or.inr (Or.inr (Or.inl rfl)))
        · intro hm; exact hall _ hm (Or.inr (Or.inr (Or.inr rfl)))
        · intro hm; exact hall _ hm (Or.inl rfl)
        · intro hm; exact hall _ hm (Or.inr (Or.inl rfl))

/-- A field followed by a comma: the reader appends the field and stands at the
start of the next field. -/
theorem parseField_field_comma (f X : GoString) (fuel : Nat) (line rest : GoString)
    (acc : List GoString) (hline : IsLine line)
    (heq : line ++ rest = writeField f ++ ',' :: X) (hcrlf : hasCRLF (line ++ rest) = false)
    (hX : '\n' ∈ X) (hfuel : line.length + rest.length < fuel) :
    ∃ fuel1 line1 rest1, IsLine line1 ∧ line1 ++ rest1 = X ∧
      hasCRLF (line1 ++ rest1) = false ∧ line1.length + rest1.length < fuel1 ∧
      parseField fuel none line rest acc = parseField fuel1 none line1 rest1 (acc ++ [f]) := by
  obtain ⟨n, rfl⟩ : ∃ n, fuel = n + 1 := ⟨fuel - 1, by omega⟩
  by_cases hnq : fieldNeedsQuotes f = true
  · -- quoted
    have heq1 : line ++ rest = ['"'] ++ (escapeQuoted f ++ '"' :: (',' :: X)) := by
      rw [heq, writeField, if_pos hnq]; simp
    obtain ⟨l, hl, hlrest, hlline⟩ := hline.peel ['"'] line rest _ heq1 (by decide)
    subst hl
    have hcrlf1 : hasCRLF (l ++ rest) = false :=
      (hasCRLF_append_false ['"'] (l ++ rest) (by simpa using hcrlf)).2.1
    have hlen : l.length + rest.length < n := by
      simp only [List.length_append, List.length_cons, List.length_nil] at hfuel
      omega
    obtain ⟨fuel1, line1, rest1, h1, h2, h3, h4, h5⟩ :=
      parseField_quoted_body f n [] l rest acc (',' :: X) hlline hlrest hcrlf1
        (List.mem_cons_of_mem _ hX) hlen
    obtain ⟨m, rfl⟩ : ∃ m, fuel1 = m + 1 := ⟨fuel1 - 1, by omega⟩
    have h2a : line1 ++ rest1 = ['"', ','] ++ X := by rw [h2]; rfl
    obtain ⟨l2, hl2, hl2rest, hl2line⟩ := h1.peel ['"', ','] line1 rest1 _ h2a (by decide)
    subst hl2
    have hcrlf2 : hasCRLF (l2 ++ rest1) = false :=
      (hasCRLF_append_false ['"', ','] (l2 ++ rest1) (by simpa using h3)).2.1
    have hlen2 : l2.length + rest1.length < m := by
      simp only [List.length_append, List.length_cons, List.length_nil] at h4
      omega
    refine ⟨m, l2, rest1, hl2line, hl2rest, hcrlf2, hlen2, ?_⟩
    have hopen := parseField_open_quote n l rest acc
    have hclose := parseField_quoted_close_comma m ([] ++ f) l2 rest1 acc
    simp only [List.cons_append, List.nil_append] at hopen hclose h5 ⊢
    rw [hopen, h5, hclose]
  · -- not quoted
    have hnq1 : fieldNeedsQuotes f = false := by simpa using hnq
    obtain ⟨hq, hc, hn, _⟩ := fieldNeedsQuotes_false f hnq1
    have heq1 : line ++ rest = (f ++ [',']) ++ X := by
      rw [heq, writeField, if_neg hnq]; simp
    have hno : '\n' ∉ f ++ [','] := by
      intro hm
      rcases List.mem_append.mp hm with h | h
      · exact hn h
      · simp at h
    obtain ⟨l, hl, hlrest, hlline⟩ := hline.peel (f ++ [',']) line rest _ heq1 hno
    subst hl
    have hcrlf1 : hasCRLF (l ++ rest) = false :=
      (hasCRLF_append_false (f ++ [',']) (l ++ rest) (by simpa using hcrlf)).2.1
    have hlen : l.length + rest.length < n := by
      simp only [List.length_append, List.length_cons, List.length_nil] at hfuel
      omega
    refine ⟨n, l, rest, hlline, hlrest, hcrlf1, hlen, ?_⟩
    have hstep := parseField_unquoted_comma n f l rest acc hq hc
    simp only [List.append_assoc, List.singleton_append] at hstep ⊢
    exact hstep

/-- The last field of a record, followed by the newline that ends the record:
the reader returns the record and the text after it. -/
theorem parseField_field_last (f tail : GoString) (fuel : Nat) (line rest : GoString)
    (acc : List GoString) (hline : IsLine line)
    (heq : line ++ rest = writeField f ++ '\n' :: tail) (hcrlf : hasCRLF (line ++ rest) = false)
    (hfuel : line.length + rest.length < fuel) :
    parseField fuel none line rest acc = .ok (acc ++ [f], tail) := by
  obtain ⟨n, rfl⟩ : ∃ n, fuel = n + 1 := ⟨fuel - 1, by omega⟩
  by_cases hnq : fieldNeedsQuotes f = true
  · have heq1 : line ++ rest = ['"'] ++ (escapeQuoted f ++ '"' :: ('\n' :: tail)) := by
      rw [heq, writeField, if_pos hnq]; simp
    obtain ⟨l, hl, hlrest, hlline⟩ := hline.peel ['"'] line rest _ heq1 (by decide)
    subst hl
    have hcrlf1 : hasCRLF (l ++ rest) = false :=
      (hasCRLF_append_false ['"'] (l ++ rest) (by simpa using hcrlf)).2.1
    have hlen : l.length + rest.length < n := by
      simp only [List.length_append, List.length_cons, List.length_nil] at hfuel
      omega
    obtain ⟨fuel1, line1, rest1, h1, h2, _, h4, h5⟩ :=
      parseField_quoted_body f n [] l rest acc ('\n' :: tail) hlline hlrest hcrlf1
        (List.mem_cons_self _ _) hlen
    obtain ⟨m, rfl⟩ : ∃ m, fuel1 = m + 1 := ⟨fuel1 - 1, by omega⟩
    have h2a : line1 ++ rest1 = ['"'] ++ ('\n' :: tail) := by rw [h2]; rfl
    obtain ⟨l2, hl2, hl2rest, hl2line⟩ := h1.peel ['"'] line1 rest1 _ h2a (by decide)
    subst hl2
    obtain ⟨hl3, hrest3⟩ := hl2line.peel_newline l2 rest1 tail hl2rest
    subst hl3
    subst hrest3
    have hopen := parseField_open_quote n l rest acc
    have hclose := parseField_quoted_close_line m ([] ++ f) rest1 acc
    simp only [List.cons_append, List.nil_append] at hopen hclose h5 ⊢
    rw [hopen, h5, hclose]
  · have hnq1 : fieldNeedsQuotes f = false := by simpa using hnq
    obtain ⟨hq, hc, hn, _⟩ := fieldNeedsQuotes_false f hnq1
    have heq1 : line ++ rest = f ++ ('\n' :: tail) := by
      rw [heq, writeField, if_neg hnq]
    obtain ⟨l, hl, hlrest, hlline⟩ := hline.peel f line rest _ heq1 hn
    subst hl
    obtain ⟨hl3, hrest3⟩ := hlline.peel_newline l rest tail hlrest
    subst hl3
    subst hrest3
    exact parseField_unquoted_last n f rest acc hq hc

theorem mem_writeFields_newline (fs : List GoString) (tail : GoString) :
    '\n' ∈ writeFields fs ++ '\n' :: tail :=
  List.mem_append_right _ (List.mem_cons_self _ _)

/-- A whole record: from the start of its line the reader returns its fields
and the text after the record. -/
theorem parseField_record (fs : List GoString) (hne : fs ≠ []) :
    ∀ (fuel : Nat) (line rest : GoString) (acc : List GoString) (tail : GoString),
      IsLine line → line ++ rest = writeFields fs ++ '\n' :: tail →
      hasCRLF (line ++ rest) = false → line.length + rest.length < fuel →
      parseField fuel none line rest acc = .ok (acc ++ fs, tail) := by
  induction fs with
  | nil => exact absurd rfl hne
  | cons f more ih =>
    intro fuel line rest acc tail hline heq hcrlf hfuel
    cases more with
    | nil =>
      exact parseField_field_last f tail fuel line rest acc hline
        (by rw [heq]; rfl) hcrlf hfuel
    | cons g more1 =>
      have heq1 : line ++ rest =
          writeField f ++ ',' :: (writeFields (g :: more1) ++ '\n' :: tail) := by
        rw [heq]; simp [writeFields]
      obtain ⟨fuel1, line1, rest1, h1, h2, h3, h4, h5⟩ :=
        parseField_field_comma f _ fuel line rest acc hline heq1 hcrlf
          (mem_writeFields_newline (g :: more1) tail) hfuel
      rw [h5, ih (by simp) fuel1 line1 rest1 (acc ++ [f]) tail h1 h2 h3 h4]
      simp

/-! ### The writer's text holds no `\r\n` unless a field does -/

theorem Safe.append {x y : GoString} (hx : Safe x) (hy : Safe y) : Safe (x ++ y) := by
  obtain ⟨hx1, hx2, hx3⟩ := hx
  obtain ⟨hy1, hy2, hy3⟩ := hy
  refine ⟨?_, ?_, ?_⟩
  · rw [hasCRLF_append, hx1, hy1]
    have : (x.getLast? == some '\r') = false := by simpa using hx3
    rw [this]
    rfl
  · rw [List.head?_append]
    cases hxh : x.head? with
    | none => simpa using hy2
    | some c =>
      rw [hxh] at hx2
      simpa using hx2
  · rw [List.getLast?_append]
    cases hyl : y.getLast? with
    | none => simpa using hx3
    | some c =>
      rw [hyl] at hy3
      simpa using hy3

theorem head?_escapeQuoted (f : GoString) : (escapeQuoted f).head? = f.head? := by
  cases f with
  | nil => rfl
  | cons c cs =>
    unfold escapeQuoted
    by_cases hc : c = '"'
    · rw [if_pos hc, hc]; rfl
    · rw [if_neg hc]; rfl

theorem hasCRLF_escapeQuoted (f : GoString) : hasCRLF (escapeQuoted f) = hasCRLF f := by
  induction f with
  | nil => rfl
  | cons c cs ih =>
    unfold escapeQuoted
    by_cases hc : c = '"'
    · rw [if_pos hc, hc]
      simp [hasCRLF, ih]
    · rw [if_neg hc]
      simp only [hasCRLF, ih, head?_escapeQuoted]

theorem Safe.singleton (c : Char) (h1 : c ≠ '\n') (h2 : c ≠ '\r') : Safe [c] := by
  refine ⟨by simp [hasCRLF], ?_, ?_⟩
  · simpa using h1
  · simpa using h2

theorem Safe.writeField (f : GoString) (h : hasCRLF f = false) : Safe (writeField f) := by
  unfold LLMO.writeField
  by_cases hnq : fieldNeedsQuotes f = true
  · rw [if_pos hnq]
    have hbody : hasCRLF (escapeQuoted f ++ ['"']) = false := by
      rw [hasCRLF_append, hasCRLF_escapeQuoted, h]
      simp [hasCRLF]
    refine ⟨?_, by simp, ?_⟩
    · simp only [hasCRLF, hbody, Bool.or_false, Bool.and_eq_false_imp, beq_iff_eq]
      intro hbad
      exact absurd hbad (by decide)
    · have : ('"' :: (escapeQuoted f ++ ['"'])).getLast? = some '"' := by
        rw [← List.cons_append, List.getLast?_concat]
      rw [this]
      decide
  · rw [if_neg hnq]
    have hnq1 : fieldNeedsQuotes f = false := by simpa using hnq
    obtain ⟨_, _, hn, hr⟩ := fieldNeedsQuotes_false f hnq1
    refine ⟨h, ?_, ?_⟩
    · intro hh
      exact hn (List.mem_of_mem_head? hh)
    · intro hl
      exact hr (List.mem_of_mem_getLast? hl)

theorem Safe.writeFields (fs : List GoString) (h : ∀ f ∈ fs, hasCRLF f = false) :
    Safe (writeFields fs) := by
  induction fs with
  | nil => exact ⟨rfl, by simp [LLMO.writeFields], by simp [LLMO.writeFields]⟩
  | cons f more ih =>
    have hf := Safe.writeField f (h f (List.mem_cons_self f more))
    cases more with
    | nil => exact hf
    | cons g more1 =>
      have hrest := ih (fun x hx => h x (List.mem_cons_of_mem f hx))
      have hcomma : Safe [','] := Safe.singleton ',' (by decide) (by decide)
      have : LLMO.writeFields (f :: g :: more1) =
          LLMO.writeField f ++ ([','] ++ LLMO.writeFields (g :: more1)) := by
        simp [LLMO.writeFields]
      rw [this]
      exact hf.append (hcomma.append hrest)

theorem hasCRLF_writeRecord (r : List GoString) (h : ∀ f ∈ r, hasCRLF f = false) :
    hasCRLF (writeRecord r) = false := by
  obtain ⟨h1, _, h3⟩ := Safe.writeFields r h
  unfold writeRecord
  rw [hasCRLF_append, h1]
  have : ((LLMO.writeFields r).getLast? == some '\r') = false := by simpa using h3
  rw [this]
  rfl

theorem hasCRLF_writeAll (records : List (List GoString))
    (h : ∀ r ∈ records, ∀ f ∈ r, hasCRLF f = false) : hasCRLF (writeAll records) = false := by
  induction records with
  | nil => rfl
  | cons r rs ih =>
    have hr := hasCRLF_writeRecord r (h r (List.mem_cons_self r rs))
    have hrs := ih (fun x hx => h x (List.mem_cons_of_mem r hx))
    unfold writeAll
    rw [hasCRLF_append, hr, hrs]
    have : (writeRecord r).getLast? = some '\n' := by
      unfold writeRecord
      exact List.getLast?_concat _
    rw [this]
    rfl

/-! ### Records -/

theorem length_le_writeAll (records : List (List GoString)) :
    records.length ≤ (writeAll records).length := by
  induction records with
  | nil => simp
  | cons r rs ih =>
    simp only [writeAll, writeRecord, List.length_cons, List.length_append, List.length_nil]
    omega

theorem writeFields_ne_nil (r : List GoString) (hr : 2 ≤ r.length) : writeFields r ≠ [] := by
  match r, hr with
  | f :: g :: more, _ => simp [writeFields]

/-- The reader's `readRecord` on the text of a record followed by further
records returns that record and the text of the others. -/
theorem readRecord_writeAll (r : List GoString) (rs : List (List GoString)) (fpr : Nat)
    (hr : 2 ≤ r.length) (hfpr : fpr = 0 ∨ fpr = r.length)
    (hfields : ∀ f ∈ r, hasCRLF f = false)
    (hcrlf : hasCRLF (writeAll (r :: rs)) = false) :
    readRecord (writeAll (r :: rs)) fpr = .ok (some (r, writeAll rs, r.length)) := by
  have htext : writeAll (r :: rs) = writeFields r ++ '\n' :: writeAll rs := by
    simp [writeAll, writeRecord]
  have hmem : '\n' ∈ writeAll (r :: rs) := by
    rw [htext]; exact mem_writeFields_newline r (writeAll rs)
  obtain ⟨pre, rest0, hpr, hpre, hread⟩ := readLine_of_mem _ hmem hcrlf
  have hsafe := Safe.writeFields r hfields
  have hpre_ne : pre ≠ [] := by
    intro hnil
    subst hnil
    have h1 : (writeAll (r :: rs)).head? = some '\n' := by rw [hpr]; rfl
    rw [htext, List.head?_append] at h1
    cases hh : (LLMO.writeFields r).head? with
    | none =>
      rw [List.head?_eq_none_iff] at hh
      exact writeFields_ne_nil r hr hh
    | some c =>
      rw [hh] at h1
      simp only [Option.or_some, Option.some.injEq] at h1
      exact hsafe.2.1 (by rw [hh, h1])
  have hnext : nextLine ((writeAll (r :: rs)).length + 1) (writeAll (r :: rs)) =
      some (pre ++ ['\n'], rest0) := by
    rw [nextLine, hread]
    have hlen : ¬ (pre ++ ['\n']).length = lengthNL (pre ++ ['\n']) := by
      rw [lengthNL_concat]
      have : 0 < pre.length := List.length_pos.mpr hpre_ne
      simp only [List.length_append, List.length_cons, List.length_nil]
      omega
    simp only [hlen, if_false, Bool.false_eq_true]
  have hline : IsLine (pre ++ ['\n']) := ⟨pre, rfl, hpre⟩
  have heq : (pre ++ ['\n']) ++ rest0 = writeFields r ++ '\n' :: writeAll rs := by
    rw [← htext, hpr]; simp
  have hcrlf1 : hasCRLF ((pre ++ ['\n']) ++ rest0) = false := by
    rw [heq, ← htext]; exact hcrlf
  have hrne : r ≠ [] := by
    intro h; rw [h] at hr; simp at hr
  have hparse := parseField_record r hrne ((pre ++ ['\n']).length + rest0.length + 2)
    (pre ++ ['\n']) rest0 [] (writeAll rs) hline heq hcrlf1 (by omega)
  unfold readRecord
  rw [hnext]
  simp only [hparse, List.nil_append]
  rcases hfpr with h0 | hk
  · subst h0
    simp
  · subst hk
    have : 0 < r.length := by omega
    simp [this]

theorem readRecord_nil (fpr : Nat) : readRecord [] fpr = .ok none := by
  rfl

/-- The loop of `ReadAll` on the text of a list of records, all with the same
number (at least two) of fields and none holding `\r\n`, returns the records. -/
theorem readAllLoop_writeAll (k : Nat) (hk : 2 ≤ k) (records : List (List GoString)) :
    ∀ (fuel fpr : Nat) (acc : List (List GoString)),
      (∀ r ∈ records, r.length = k) → (fpr = 0 ∨ fpr = k) →
      (∀ r ∈ records, ∀ f ∈ r, hasCRLF f = false) → records.length < fuel →
      readAllLoop fuel (writeAll records) fpr acc = .ok (acc ++ records) := by
  induction records with
  | nil =>
    intro fuel fpr acc _ _ _ hfuel
    obtain ⟨n, rfl⟩ : ∃ n, fuel = n + 1 := ⟨fuel - 1, by omega⟩
    simp [readAllLoop, writeAll, readRecord_nil]
  | cons r rs ih =>
    intro fuel fpr acc hlen hfpr hfields hfuel
    obtain ⟨n, rfl⟩ : ∃ n, fuel = n + 1 := ⟨fuel - 1, by omega⟩
    have hrk : r.length = k := hlen r (List.mem_cons_self r rs)
    have hrec := readRecord_writeAll r rs fpr (by omega) (by rw [hrk]; exact hfpr)
      (hfields r (List.mem_cons_self r rs)) (hasCRLF_writeAll _ hfields)
    rw [readAllLoop, hrec]
    simp only
    rw [ih n r.length (acc ++ [r]) (fun x hx => hlen x (List.mem_cons_of_mem r hx))
      (Or.inr hrk) (fun x hx => hfields x (List.mem_cons_of_mem r hx))
      (by simp only [List.length_cons] at hfuel; omega)]
    simp

theorem ReadAll_writeAll (k : Nat) (hk : 2 ≤ k) (records : List (List GoString))
    (hlen : ∀ r ∈ records, r.length = k)
    (hfields : ∀ r ∈ records, ∀ f ∈ r, hasCRLF f = false) :
    ReadAll (writeAll records) = .ok records := by
  unfold ReadAll
  rw [readAllLoop_writeAll k hk records _ 0 [] hlen (Or.inl rfl) hfields
    (by have := length_le_writeAll records; omega)]
  simp

/-! ### C7 -/

theorem row_length (r : QueryResult) : (row r).length = 6 := rfl

theorem hasCRLF_boolField (b : Bool) : hasCRLF (boolField b) = false := by
  cases b <;> decide

/-- C7 (as stated, refuted): an answer holding `\r\n` is written inside quotes
unchanged, and the reader returns it with the `\r` removed, so the row read
back differs from the row written. -/
theorem C7_counterexample :
    ∃ w : Writer,
      saveResultsToCSV none [crlfResult] = .ok w ∧
        w.records = [header, row crlfResult] ∧
        ReadAll w.out =
          .ok [header,
            ["q".toList, "t".toList, "true".toList, noneSentinel, "false".toList,
              ['a', '\n', 'b']]] ∧
        ReadAll w.out ≠ .ok w.records := by
  refine ⟨_, saveResultsToCSV_ok [crlfResult], rfl, ?_, ?_⟩
  · rfl
  · have hread : ReadAll (writeAll (header :: [crlfResult].map row)) =
        .ok [header,
          ["q".toList, "t".toList, "true".toList, noneSentinel, "false".toList,
            ['a', '\n', 'b']]] := rfl
    intro h
    simp only at h
    rw [hread] at h
    exact absurd (Except.ok.inj h) (by decide)

/-- C7 (amended): when no serialized field of any result holds a carriage
return directly followed by a newline, parsing the text written by
`saveResultsToCSV` with the standard reader yields the header and then the
`n` rows, equal rune for rune to the fields written; commas, quotes, newlines
and lone carriage returns in the fields are allowed. -/
theorem C7_csv_round_trip (results : List QueryResult)
    (h : ∀ r ∈ results, ∀ f ∈ row r, hasCRLF f = false) :
    ∃ w : Writer,
      saveResultsToCSV none results = .ok w ∧
        ReadAll w.out = .ok (header :: results.map row) ∧
        (header :: results.map row).length = results.length + 1 := by
  refine ⟨_, saveResultsToCSV_ok results, ?_, by simp⟩
  apply ReadAll_writeAll 6 (by decide)
  · intro r hr
    rcases List.mem_cons.mp hr with h1 | h1
    · rw [h1]; rfl
    · obtain ⟨q, _, rfl⟩ := List.mem_map.mp h1
      exact row_length q
  · intro r hr f hf
    rcases List.mem_cons.mp hr with h1 | h1
    · rw [h1] at hf
      revert f
      decide
    · obtain ⟨q, hq, rfl⟩ := List.mem_map.mp h1
      exact h q hq f hf

/-- C7 witness: a result whose query and answer hold a comma, quotes, a lone
carriage return and newlines is read back unchanged. -/
theorem C7_csv_round_trip_witness :
    (∀ r ∈ [quotedResult], ∀ f ∈ row r, hasCRLF f = false) ∧
      ∃ w : Writer,
        saveResultsToCSV none [quotedResult] = .ok w ∧
          ReadAll w.out = .ok (header :: [quotedResult].map row) ∧
          (header :: [quotedResult].map row).length = [quotedResult].length + 1 :=
  ⟨by decide, C7_csv_round_trip [quotedResult] (by decide)⟩

end LLMO
